import Mathlib

/-!
Shallow embedding of the airkit repository (src/utils/uri.js and
src/youtubemodal/index.js) and proofs about its specified behaviour.

JavaScript strings are modelled as `List Char` / `String`; a JavaScript
function that can throw is modelled with `Option` (`none` = an exception
propagates).  JavaScript objects used as ordered string maps are modelled
as association lists in insertion order with last-write-wins updates.
-/

namespace Uri

/-- A token of a percent-encoded string: either a plain character or one
decoded `%hh` byte.  Used to model the ECMAScript `Decode` algorithm that
`decodeURIComponent` performs. -/
inductive Tok where
  | chr (c : Char)
  | byte (b : Nat)
deriving DecidableEq, Repr

/-- Value of one hexadecimal digit character, case insensitive (the code
points 48-57, 65-70 and 97-102 are the digits, the uppercase and the
lowercase hex letters). -/
def hexVal (c : Char) : Option Nat :=
  let n := c.toNat
  if 48 ≤ n ∧ n ≤ 57 then some (n - 48)
  else if 65 ≤ n ∧ n ≤ 70 then some (n - 55)
  else if 97 ≤ n ∧ n ≤ 102 then some (n - 87)
  else none

/-- First phase of `decodeURIComponent`: each `%hh` escape becomes a byte
token, every other character stays a character token.  A `%` that is not
followed by two hexadecimal digits makes the whole decode throw
(`none`). -/
def tokenize : List Char → Option (List Tok)
  | [] => some []
  | c :: rest =>
    if c = '%' then
      match rest with
      | h :: l :: rest2 =>
        match hexVal h, hexVal l with
        | some a, some b => (tokenize rest2).map (fun ts => Tok.byte (16 * a + b) :: ts)
        | _, _ => none
      | _ => none
    else (tokenize rest).map (fun ts => Tok.chr c :: ts)

/-- Second phase of `decodeURIComponent`, as a streaming UTF-8 validator:
runs of byte tokens must form valid (shortest-form, non-surrogate) UTF-8
sequences; anything else throws (`none`).  The pending state
`some (need, acc, lo, hi)` means a multi-byte sequence is open: `need`
continuation bytes are still expected, `acc` is the accumulated code
point so far and the next byte must lie in `[lo, hi]` (the bound on the
first continuation byte is the standard UTF-8 validity table, which
rejects overlong encodings, surrogates and code points above
0x10FFFF; lead bytes 0x80-0xC1 and 0xF5-0xFF are invalid). -/
def utf8DecodeGo : Option (Nat × Nat × Nat × Nat) → List Tok → Option (List Char)
  | none, [] => some []
  | some _, [] => none
  | none, Tok.chr c :: rest => (utf8DecodeGo none rest).map (fun cs => c :: cs)
  | none, Tok.byte b :: rest =>
    if b < 128 then (utf8DecodeGo none rest).map (fun cs => Char.ofNat b :: cs)
    else if 194 ≤ b ∧ b ≤ 223 then utf8DecodeGo (some (1, b - 192, 128, 191)) rest
    else if 224 ≤ b ∧ b ≤ 239 then
      utf8DecodeGo (some (2, b - 224, (if b = 224 then 160 else 128),
        (if b = 237 then 159 else 191))) rest
    else if 240 ≤ b ∧ b ≤ 244 then
      utf8DecodeGo (some (3, b - 240, (if b = 240 then 144 else 128),
        (if b = 244 then 143 else 191))) rest
    else none
  | some _, Tok.chr _ :: _ => none
  | some (need, acc, lo, hi), Tok.byte b1 :: rest =>
    if lo ≤ b1 ∧ b1 ≤ hi then
      if need = 1 then
        (utf8DecodeGo none rest).map (fun cs => Char.ofNat (acc * 64 + (b1 - 128)) :: cs)
      else utf8DecodeGo (some (need - 1, acc * 64 + (b1 - 128), 128, 191)) rest
    else none

/-- Second phase of `decodeURIComponent` on a whole token list. -/
def utf8Decode (l : List Tok) : Option (List Char) :=
  utf8DecodeGo none l

/-- The ECMAScript builtin `decodeURIComponent`, modelled on character
lists; `none` models a thrown `URIError`. -/
def decodeURIComponentJs (l : List Char) : Option (List Char) :=
  (tokenize l).bind utf8Decode

/-- `str.replace(/\+/g, ' ')` from `urlDecode_`. -/
def plusToSpace (l : List Char) : List Char :=
  l.map (fun c => if c = '+' then ' ' else c)

/-- `urlDecode_(str)` from src/utils/uri.js: replace every `+` with a
space, then `decodeURIComponent`. -/
def urlDecode_ (l : List Char) : Option (List Char) :=
  decodeURIComponentJs (plusToSpace l)

/-- `query.split('&')` (JavaScript split on a one-character separator). -/
def splitAmp : List Char → List (List Char)
  | [] => [[]]
  | c :: rest =>
    if c = '&' then [] :: splitAmp rest
    else
      match splitAmp rest with
      | s :: ss => (c :: s) :: ss
      | [] => [[c]]

/-- `pairs[i].indexOf('=')` together with the two `substring` calls: split
a segment at its first `=`; `none` when the segment has no `=`. -/
def splitFirstEq : List Char → Option (List Char × List Char)
  | [] => none
  | c :: rest =>
    if c = '=' then some ([], rest)
    else (splitFirstEq rest).map (fun p => (c :: p.1, p.2))

/-- The body of the `parseQueryString` loop for one `&`-separated segment:
a segment with an `=` yields (key, urlDecode_(value)); a segment without
`=` yields (segment, ""). `none` models the decode throwing. -/
def parseSegment (seg : List Char) : Option (String × String) :=
  match splitFirstEq seg with
  | some p => (urlDecode_ p.2).map (fun dv => (String.mk p.1, String.mk dv))
  | none => some (String.mk seg, "")

/-- `Option`-valued map over a list, stopping at the first failure (the
JavaScript loop stops when a decode throws). -/
def mapMOpt (f : α → Option β) : List α → Option (List β)
  | [] => some []
  | a :: l =>
    match f a, mapMOpt f l with
    | some b, some bs => some (b :: bs)
    | _, _ => none

/-- Removal of a single leading `?` (`query.startsWith('?')` /
`query.slice(1)`). -/
def stripLeadingQm (l : List Char) : List Char :=
  match l with
  | c :: rest => if c = '?' then rest else l
  | [] => l

/-- `parseQueryString(query, callback)` from src/utils/uri.js.  The
returned list is the sequence of (key, value) arguments passed to the
callback, in call order; `none` models a thrown `URIError`.  Note the
empty-string check happens before the leading `?` is removed. -/
def parseQueryString (query : String) : Option (List (String × String)) :=
  if query.data = [] then some []
  else mapMOpt parseSegment (splitAmp (stripLeadingQm query.data))

/-- `map[key] = value` on a JavaScript object modelled as an insertion
ordered association list: an existing key is overwritten in place, a new
key is appended.  (JavaScript objects iterate integer-like keys first;
that reordering does not affect any property proved here, since only
membership and the map-to-itself fixed point are used.) -/
def mapSet (m : List (String × String)) (k v : String) : List (String × String) :=
  if m.any (fun p => p.1 = k) then m.map (fun p => if p.1 = k then (k, v) else p)
  else m ++ [(k, v)]

/-- `parseQueryMap(query)` from src/utils/uri.js. -/
def parseQueryMap (query : String) : Option (List (String × String)) :=
  (parseQueryString query).map (fun l => l.foldl (fun m p => mapSet m p.1 p.2) [])

/-- The set of characters `encodeURIComponent` leaves unescaped. -/
def unreservedJs (c : Char) : Bool :=
  c.isAlphanum || c = '-' || c = '_' || c = '.' || c = '!' || c = '~' ||
    c = '*' || c = '\x27' || c = '(' || c = ')'

/-- Shortest-form UTF-8 encoding of a code point. -/
def utf8Bytes (n : Nat) : List Nat :=
  if n < 128 then [n]
  else if n < 2048 then [192 + n / 64, 128 + n % 64]
  else if n < 65536 then [224 + n / 4096, 128 + n / 64 % 64, 128 + n % 64]
  else [240 + n / 262144, 128 + n / 4096 % 64, 128 + n / 64 % 64, 128 + n % 64]

/-- Uppercase hexadecimal digit character, for `n < 16`. -/
def hexChar (n : Nat) : Char :=
  if n < 10 then Char.ofNat ('0'.toNat + n) else Char.ofNat ('A'.toNat + n - 10)

/-- `%hh` escape of one byte. -/
def pctByte (b : Nat) : List Char :=
  ['%', hexChar (b / 16), hexChar (b % 16)]

/-- Concatenated map (the JavaScript building of an output string piece by
piece). -/
def concatMap (f : α → List β) : List α → List β
  | [] => []
  | a :: l => f a ++ concatMap f l

/-- `encodeURIComponent` on one character. -/
def encChar (c : Char) : List Char :=
  if unreservedJs c then [c] else concatMap pctByte (utf8Bytes c.toNat)

/-- The ECMAScript builtin `encodeURIComponent`, modelled on character
lists. -/
def encodeURIComponentChars (l : List Char) : List Char :=
  concatMap encChar l

/-- `urlEncode_(str)` from src/utils/uri.js (`String(str)` on a string is
the identity). -/
def urlEncode_ (s : String) : String :=
  String.mk (encodeURIComponentChars s.data)

/-- `params.join('&')`. -/
def joinAmp : List (List Char) → List Char
  | [] => []
  | [x] => x
  | x :: y :: rest => x ++ '&' :: joinAmp (y :: rest)

/-- `encodeQueryMap(map)` from src/utils/uri.js: keys are emitted verbatim
(never encoded), values are `urlEncode_`d, pairs joined with `&` in map
iteration order. -/
def encodeQueryMap (m : List (String × String)) : String :=
  String.mk (joinAmp (m.map (fun p => p.1.data ++ '=' :: encodeURIComponentChars p.2.data)))

/-- Attempt of the regex `[\?&]key=([^&#]*)` to match with the `[\?&]`
character already consumed: the key (taken literally) must follow, then
`=`, then the capture group takes the longest run free of `&` and `#`. -/
def matchKeyAt : List Char → List Char → Option (List Char)
  | [], l =>
    match l with
    | c :: rest =>
      if c = '=' then some (rest.takeWhile (fun d => decide (d ≠ '&' ∧ d ≠ '#')))
      else none
    | [] => none
  | k :: ks, l =>
    match l with
    | c :: rest => if c = k then matchKeyAt ks rest else none
    | [] => none

/-- `regex.exec(uri)` for the pattern `[\?&]key=([^&#]*)`: the first
position (left to right) where the pattern matches, returning the capture
group.  Valid for keys whose escaped form is a literal pattern (no regex
metacharacters; at most one `[`). -/
def findKeyMatch (key : List Char) : List Char → Option (List Char)
  | [] => none
  | c :: rest =>
    if c = '?' ∨ c = '&' then
      match matchKeyAt key rest with
      | some v => some v
      | none => findKeyMatch key rest
    else findKeyMatch key rest

/-- A single (non-global) `replace` of the first occurrence of `c` by
`rep`, as in `key.replace(/[\[]/, ...)`. -/
def replaceFirst (c : Char) (rep : List Char) : List Char → List Char
  | [] => []
  | x :: rest => if x = c then rep ++ rest else x :: replaceFirst c rep rest

/-- The key-escaping step of `getParameterValue`: the non-global regexes
`/[\[]/` and `/[\]]/` replace only the FIRST `[` and the FIRST `]`, each
by a backslash-escaped bracket. -/
def escapeKey (k : String) : String :=
  String.mk (replaceFirst ']' ['\\', ']'] (replaceFirst '[' ['\\', '['] k.data))

/-- `getParameterValue(key, uri)` from src/utils/uri.js.  The outer
`Option` models a thrown `URIError`; the inner one models the returned
value (`none` = JavaScript `null`).  Because the code tests `result ?`
with JavaScript truthiness, an empty capture also yields `null`. -/
def getParameterValue (key : String) (uri : String) : Option (Option String) :=
  match findKeyMatch key.data uri.data with
  | none => some none
  | some raw =>
    if raw = [] then some none
    else (urlDecode_ raw).map (fun d => some (String.mk d))

/-! ### ParamPropagator: `updateParamsFromUrl` from src/utils/uri.js

The DOM is modelled as the list of elements matched by the selector, each
element being its attribute map.  `new URL(href, location.href)` is an
external browser builtin and is passed in as an oracle `newURL`; it
returns the parsed query string of the resolved URL together with the
serialisation function used when `url.search` is assigned and
`url.toString()` is read back (`none` models the constructor throwing on
an unparseable URL).  DOM reads and writes are recorded as a trace so
that "performs no DOM reads and no writes" is a statement about the
model. -/

/-- One entry of the `params` config list: a plain string (exact match)
or a RegExp, abstracted as its match predicate. -/
inductive ParamSpec where
  | str (s : String)
  | regex (test : String → Bool)

/-- `UpdateParamsFromUrlDefaultConfig` merged with the caller config.
Modelled from the spec: `objects.clone`/`objects.merge`
(src/utils/objects.js is not part of src/) perform a shallow clone of the
defaults followed by a shallow merge of the caller config, so each caller
field simply overrides the corresponding default. -/
structure UPConfig where
  serializeAttr : String
  selector : String
  attr : String
  params : Option (List ParamSpec)

/-- Caller-supplied config for `updateParamsFromUrl`; `none` fields fall
back to the defaults. -/
structure UPConfigOpt where
  serializeAttr : Option String := none
  selector : Option String := none
  attr : Option String := none
  params : Option (Option (List ParamSpec)) := none

/-- `UpdateParamsFromUrlDefaultConfig` from src/utils/uri.js. -/
def defaultUPConfig : UPConfig :=
  { serializeAttr := "data-ak-update-params-serialize-into-key"
    selector := "a.ak-update-params[href]"
    attr := "href"
    params := none }

/-- Shallow clone of the defaults followed by a shallow merge of the
caller config. -/
def mergeUPConfig (d : UPConfig) (o : UPConfigOpt) : UPConfig :=
  { serializeAttr := o.serializeAttr.getD d.serializeAttr
    selector := o.selector.getD d.selector
    attr := o.attr.getD d.attr
    params := o.params.getD d.params }

/-- A DOM element, reduced to its attribute map. -/
structure Elem where
  attrs : List (String × String)
deriving DecidableEq, Repr

/-- `el.getAttribute(a)`: `none` models JavaScript `null`. -/
def getAttr (e : Elem) (a : String) : Option String :=
  (e.attrs.find? (fun p => p.1 = a)).map (fun p => p.2)

/-- `el.setAttribute(a, v)`. -/
def setAttr (e : Elem) (a v : String) : Elem :=
  if e.attrs.any (fun p => p.1 = a) then
    ⟨e.attrs.map (fun p => if p.1 = a then (a, v) else p)⟩
  else ⟨e.attrs ++ [(a, v)]⟩

/-- The oracle for the browser `URL` builtin: the query string of the
resolved URL, and the full URL string obtained after assigning a new
query string. -/
structure URLObj where
  search : String
  withSearch : String → String

/-- A DOM access performed by `updateParamsFromUrl`, with the index of
the element in the matched list. -/
inductive DomOp where
  | queryAll (selector : String)
  | readAttr (i : Nat) (a : String)
  | writeAttr (i : Nat) (a : String) (v : String)
deriving DecidableEq, Repr

/-- `href.startsWith('#')`. -/
def startsHash (l : List Char) : Bool :=
  match l with
  | c :: _ => c = '#'
  | [] => false

/-- The `parseQueryString(location.search, callback)` call of
`updateParamsFromUrl`: keep a pair when `params` is null, or when some
listed entry matches its key (string entries by equality, RegExp entries
by `key.match`). -/
def buildVals (params : Option (List ParamSpec)) (pairs : List (String × String)) :
    List (String × String) :=
  pairs.foldl
    (fun m p =>
      match params with
      | none => mapSet m p.1 p.2
      | some ps =>
        if ps.any (fun q => match q with | .str s => s = p.1 | .regex t => t p.1) then
          mapSet m p.1 p.2
        else m)
    []

/-- The loop body of `updateParamsFromUrl` for the element at index `i`.
Result `none` in the first component models an exception thrown while
handling this element (before any write to it happens). -/
def stepElem (c : UPConfig) (newURL : String → Option URLObj)
    (vals : List (String × String)) (i : Nat) (e : Elem) :
    Option Elem × List DomOp :=
  match getAttr e c.attr with
  | none => (some e, [DomOp.readAttr i c.attr])
  | some href =>
    if href.data = [] ∨ startsHash href.data then (some e, [DomOp.readAttr i c.attr])
    else
      match newURL href with
      | none => (none, [DomOp.readAttr i c.attr, DomOp.readAttr i c.attr])
      | some url =>
        match parseQueryMap url.search with
        | none => (none, [DomOp.readAttr i c.attr, DomOp.readAttr i c.attr])
        | some map =>
          let serializeIntoKey := getAttr e c.serializeAttr
          let reads := [DomOp.readAttr i c.attr, DomOp.readAttr i c.attr,
            DomOp.readAttr i c.serializeAttr]
          match serializeIntoKey with
          | some skey =>
            if skey.data = [] then
              -- an empty marker value is falsy: plain merge branch
              let merged := vals.foldl (fun m p => mapSet m p.1 p.2) map
              let newHref := url.withSearch (encodeQueryMap merged)
              (some (setAttr e c.attr newHref), reads ++ [DomOp.writeAttr i c.attr newHref])
            else
              let serialized := encodeQueryMap vals
              let merged := mapSet map skey serialized
              let newHref := url.withSearch (encodeQueryMap merged)
              (some (setAttr e c.attr newHref), reads ++ [DomOp.writeAttr i c.attr newHref])
          | none =>
            let merged := vals.foldl (fun m p => mapSet m p.1 p.2) map
            let newHref := url.withSearch (encodeQueryMap merged)
            (some (setAttr e c.attr newHref), reads ++ [DomOp.writeAttr i c.attr newHref])

/-- The element loop of `updateParamsFromUrl`: elements are processed in
order; when handling one throws, it and all later elements keep their
old attribute values. -/
def processEls (c : UPConfig) (newURL : String → Option URLObj)
    (vals : List (String × String)) (i : Nat) :
    List Elem → List Elem × List DomOp
  | [] => ([], [])
  | e :: rest =>
    match stepElem c newURL vals i e with
    | (some e2, ops) =>
      let r := processEls c newURL vals (i + 1) rest
      (e2 :: r.1, ops ++ r.2)
    | (none, ops) => (e :: rest, ops)

/-- `updateParamsFromUrl(config)` from src/utils/uri.js, over the current
query string `search` (`location.search`), the URL oracle and the list of
elements matched by the selector.  Returns the new element states and the
trace of DOM accesses. -/
def updateParamsFromUrl (config : UPConfigOpt) (search : String)
    (newURL : String → Option URLObj) (els : List Elem) :
    List Elem × List DomOp :=
  if search.data = [] then (els, [])
  else
    let c := mergeUPConfig defaultUPConfig config
    match parseQueryString search with
    | none => (els, [])
    | some pairs =>
      let vals := buildVals c.params pairs
      let r := processEls c newURL vals 0 els
      (r.1, DomOp.queryAll c.selector :: r.2)

end Uri

namespace YTM

/-! ### ModalController: src/youtubemodal/index.js

External collaborators are abstracted exactly as the spec prescribes:
the `YT.Player` handle is opaque (its construction and its
`playVideo`/`pauseVideo`/`loadVideoById` calls are recorded as events),
`classes`/`dom` helpers become two class flags, `useragent` sniffing
becomes the environment flag `isMobile`, and `document.body`
keydown listeners become a list of listener identities (each `setVisible`
call creates a fresh bound closure, modelled by a fresh identifier drawn
from a counter).  Timer-delayed calls are recorded at scheduling time;
their relative timing is not part of any claim proved here. -/

/-- A JavaScript value stored in the `videoId` field of a history entry
(`undefined`, `null`, or a string). -/
inductive JSVal where
  | undefined
  | null
  | str (s : String)
deriving DecidableEq, Repr

/-- JavaScript loose equality `==` restricted to the values that can
appear as `stateId`/`videoId` in `setActive_`: `null == undefined` is
true, strings compare by contents, a string never equals
`null`/`undefined`. -/
def looseEq (a b : JSVal) : Bool :=
  match a, b with
  | .undefined, .undefined => true
  | .undefined, .null => true
  | .null, .undefined => true
  | .null, .null => true
  | .str x, .str y => x = y
  | _, _ => false

/-- JavaScript truthiness of an optional string argument: present and
nonempty. -/
def jsTruthyS (v : Option String) : Bool :=
  match v with
  | some s => s.data ≠ []
  | none => false

/-- `videoId == this.activeVideoId_` where the left side is a string and
`activeVideoId_` may still be `undefined`. -/
def jsEqStr (v : String) (a : Option String) : Bool :=
  match a with
  | some s => v = s
  | none => false

/-- The observable commands issued to external collaborators, in order. -/
inductive MEvent where
  | construct (videoId : String) (start : Option Nat)
  | loadVideo (videoId : String)
  | playVideo
  | pauseVideo
  | navigate (url : String)
  | openCallback (videoId : Option String)
  | closeCallback (videoId : Option String)
deriving DecidableEq, Repr

/-- The modal configuration (`defaultConfig` merged with the `init`
argument).  The callback hooks are modelled by whether they are present
(their invocations are recorded as events). -/
structure MConfig where
  useHandlerOnMobile : Bool
  history : Bool
  historyNamePrefix : String
  transitionDuration : Nat
  className : String
  parentSelector : String
  onModalOpen : Bool
  onModalClose : Bool
  playerVars : List (String × Nat)
deriving DecidableEq, Repr

/-- `defaultConfig` from src/youtubemodal/index.js. -/
def defaultConfig : MConfig :=
  { useHandlerOnMobile := true
    history := false
    historyNamePrefix := "video:"
    transitionDuration := 300
    className := "ak-youtubemodal"
    parentSelector := "body"
    onModalOpen := false
    onModalClose := false
    playerVars := [("autohide", 1), ("autoplay", 1), ("fs", 1), ("modestbranding", 1),
      ("rel", 0), ("showinfo", 0), ("iv_load_policy", 3)] }

/-- Caller config for `init`; `none` fields fall back to the defaults.
Modelled from the spec: `objects.clone`/`objects.merge`
(src/utils/objects.js is not part of src/) shallow-clone the defaults and
shallow-merge the caller config over them. -/
structure MConfigOpt where
  useHandlerOnMobile : Option Bool := none
  history : Option Bool := none
  historyNamePrefix : Option String := none
  transitionDuration : Option Nat := none
  className : Option String := none
  parentSelector : Option String := none
  onModalOpen : Option Bool := none
  onModalClose : Option Bool := none
  playerVars : Option (List (String × Nat)) := none

/-- Shallow merge of a caller config over the cloned defaults. -/
def mergeMConfig (d : MConfig) (o : MConfigOpt) : MConfig :=
  { useHandlerOnMobile := o.useHandlerOnMobile.getD d.useHandlerOnMobile
    history := o.history.getD d.history
    historyNamePrefix := o.historyNamePrefix.getD d.historyNamePrefix
    transitionDuration := o.transitionDuration.getD d.transitionDuration
    className := o.className.getD d.className
    parentSelector := o.parentSelector.getD d.parentSelector
    onModalOpen := o.onModalOpen.getD d.onModalOpen
    onModalClose := o.onModalClose.getD d.onModalClose
    playerVars := o.playerVars.getD d.playerVars }

/-- The whole mutable state touched by the modal: the `YouTubeModal`
instance fields, the module-level `player` variable, the browser history
(current entry and the list of pushed entries, most recent first), the
body keydown listener list and the event trace. -/
structure MState where
  config : MConfig
  isMobile : Bool
  pageYOffset : Nat
  player : Bool
  activeVideoId : Option String
  lastActiveVideoId : Option String
  scrollY : Nat
  classEnabled : Bool
  classVisible : Bool
  listeners : List Nat
  nextListenerId : Nat
  histState : Option JSVal
  pushes : List JSVal
  events : List MEvent
deriving DecidableEq, Repr

/-- The state right after `new YouTubeModal(config)`: no player handle,
`lastActiveVideoId_` null, `activeVideoId_` still undefined, scroll 0,
nothing pushed, no listeners. -/
def mkModal (c : MConfig) (isMobile : Bool) (pageYOffset : Nat) : MState :=
  { config := c
    isMobile := isMobile
    pageYOffset := pageYOffset
    player := false
    activeVideoId := none
    lastActiveVideoId := none
    scrollY := 0
    classEnabled := false
    classVisible := false
    listeners := []
    nextListenerId := 0
    histState := none
    pushes := []
    events := [] }

/-- `YouTubeModal.prototype.setVisible(enabled)`: schedule
`playVideo`/`pauseVideo` on the player if a handle exists, create a fresh
`_keyToggle` closure, add it as a keydown listener when enabling or pass
it to `removeEventListener` when disabling (which removes nothing, since
that fresh closure was never registered), and toggle the two visual
classes. -/
def setVisible (s : MState) (enabled : Bool) : MState :=
  let s1 :=
    if s.player then
      { s with events := s.events ++ [if enabled then MEvent.playVideo else MEvent.pauseVideo] }
    else s
  let kid := s1.nextListenerId
  let s2 := { s1 with nextListenerId := kid + 1 }
  let s3 :=
    if enabled then { s2 with listeners := s2.listeners ++ [kid] }
    else { s2 with listeners := s2.listeners.filter (fun x => x ≠ kid) }
  { s3 with classEnabled := enabled, classVisible := enabled }

/-- The first half of `setActive_`: record `lastActiveVideoId_` when the
argument is truthy, fire the open/close callback hook, capture or restore
the scroll offset. -/
def saCallbacks (s : MState) (active : Bool) (optVideoId : Option String) : MState :=
  let s1 :=
    if jsTruthyS optVideoId then { s with lastActiveVideoId := optVideoId } else s
  if active then
    let s2 :=
      if s1.config.onModalOpen then
        { s1 with events := s1.events ++ [MEvent.openCallback s1.lastActiveVideoId] }
      else s1
    { s2 with scrollY := s2.pageYOffset }
  else
    if s1.config.onModalClose then
      { s1 with events := s1.events ++ [MEvent.closeCallback s1.lastActiveVideoId] }
    else s1

/-- `var videoId = opt_videoId || this.activeVideoId_`. -/
def saVideoId (s : MState) (optVideoId : Option String) : JSVal :=
  if jsTruthyS optVideoId then .str (optVideoId.getD "")
  else
    match s.activeVideoId with
    | some a => .str a
    | none => .undefined

/-- `window.history.pushState({videoId: v}, ...)`: the new entry becomes
the current history state and is recorded (most recent first). -/
def pushEntry (s : MState) (v : JSVal) : MState :=
  { s with histState := some v, pushes := v :: s.pushes }

/-- The history tail of `setActive_`: on activation push the video id
unless the current entry already loosely equals it; on deactivation push
a null entry unconditionally. -/
def saHistoryUpd (s : MState) (active : Bool) (optVideoId : Option String) : MState :=
  let videoId := saVideoId s optVideoId
  if active then
    let stateId : JSVal :=
      match s.histState with
      | none => .null
      | some w => w
    if looseEq stateId videoId then s else pushEntry s videoId
  else pushEntry s JSVal.null

/-- `YouTubeModal.prototype.setActive_(active, opt_videoId,
opt_updateState)`. -/
def setActive (s : MState) (active : Bool) (optVideoId : Option String)
    (optUpdateState : Option Bool) : MState :=
  let s2 := saCallbacks s active optVideoId
  if ¬s2.config.history then setVisible s2 active
  else
    let s3 := setVisible s2 active
    if optUpdateState = some false then s3
    else saHistoryUpd s3 active optVideoId

/-- The start parameter recorded when the player is constructed:
`if (opt_startTime) playerVars.start = opt_startTime` with JavaScript
truthiness (zero is falsy). -/
def startOf (t : Option Nat) : Option Nat :=
  match t with
  | some x => if x ≠ 0 then some x else none
  | none => none

/-- `YouTubeModal.prototype.play(videoId, opt_updateState,
opt_startTime)`. -/
def play (s : MState) (videoId : String) (optUpdateState : Option Bool)
    (optStartTime : Option Nat) : MState :=
  let useHandler := s.config.useHandlerOnMobile && s.isMobile
  if useHandler then
    let url := "https://m.youtube.com/watch?v=" ++ videoId ++
      (match optStartTime with
       | some t => if t ≠ 0 then "&t=" ++ toString t ++ "s" else ""
       | none => "")
    { s with events := s.events ++ [MEvent.navigate url] }
  else
    let s1 := setActive s true (some videoId) optUpdateState
    if s1.player ∧ jsEqStr videoId s1.activeVideoId then s1
    else if s1.player then
      { s1 with events := s1.events ++ [MEvent.loadVideo videoId],
                activeVideoId := some videoId }
    else
      { s1 with events := s1.events ++ [MEvent.construct videoId (startOf optStartTime)],
                player := true,
                activeVideoId := some videoId }

/-- The `_keyToggle` handlers fire in registration order on a keydown
event; each handler reacts only to keyCode 27, runs `setActive_(false)`
and then removes its own closure from the listener list. -/
def fireListeners (s : MState) (code : Nat) : List Nat → MState
  | [] => s
  | id :: rest =>
    if code = 27 then
      let s1 := setActive s false none none
      let s2 := { s1 with listeners := s1.listeners.filter (fun x => x ≠ id) }
      fireListeners s2 code rest
    else fireListeners s code rest

/-- A `keydown` event on `document.body`, dispatched to a snapshot of the
currently registered listeners. -/
def dispatchKeydown (s : MState) (code : Nat) : MState :=
  fireListeners s code s.listeners

/-- `YouTubeModal.prototype.onHistoryChange_(e)`: the browser first moves
`history.state` to the popped entry, then the handler replays the video
when the popped state carries a truthy video id and otherwise only hides
the modal. -/
def onHistoryChange (s : MState) (st : Option JSVal) : MState :=
  let s1 := { s with histState := st }
  match st with
  | some (JSVal.str v) =>
    if v.data ≠ [] then play s1 v (some false) none else setVisible s1 false
  | _ => setVisible s1 false

/-- The interactions that can reach the modal during a page lifetime. -/
inductive MOp where
  | doPlay (videoId : String) (optUpdateState : Option Bool) (optStartTime : Option Nat)
  | doClose
  | keydown (code : Nat)
  | popstate (st : Option JSVal)

/-- One interaction step.  The popstate handler is registered in
`initDom_` only when history integration is configured; without it the
browser still moves `history.state` to the popped entry. -/
def stepOp (s : MState) : MOp → MState
  | .doPlay v u t => play s v u t
  | .doClose => setActive s false none none
  | .keydown c => dispatchKeydown s c
  | .popstate st =>
    if s.config.history then onHistoryChange s st else { s with histState := st }

/-- A whole interaction sequence. -/
def runOps (s : MState) (ops : List MOp) : MState :=
  ops.foldl stepOp s

/-- The open/close operations claim C2 quantifies over. -/
inductive SAOp where
  | openSA (videoId : String)
  | closeSA

/-- One C2 operation: `setActive_(true, videoId)` or `setActive_(false)`. -/
def stepSA (s : MState) : SAOp → MState
  | .openSA v => setActive s true (some v) none
  | .closeSA => setActive s false none none

/-- A sequence of C2 operations. -/
def runSA (s : MState) (ops : List SAOp) : MState :=
  ops.foldl stepSA s

/-- The module level state: the `singleton` variable (the `player`
variable lives inside `MState`). -/
structure ModuleState where
  singleton : Option MState

/-- `init(opt_config)` from src/youtubemodal/index.js: a no-op when the
singleton exists, otherwise clone the defaults, merge the caller config
and construct the modal (the environment of the construction is the
current mobile flag and scroll offset). -/
def moduleInit (ms : ModuleState) (optConfig : Option MConfigOpt)
    (isMobile : Bool) (pageYOffset : Nat) : ModuleState :=
  match ms.singleton with
  | some _ => ms
  | none =>
    let config :=
      match optConfig with
      | some o => mergeMConfig defaultConfig o
      | none => defaultConfig
    ⟨some (mkModal config isMobile pageYOffset)⟩

/-- The exported `play(videoId)`: throws (`Except.error` with the thrown
string) when `init` has not run. -/
def modulePlay (ms : ModuleState) (videoId : String) : Except String ModuleState :=
  match ms.singleton with
  | none => Except.error "youtubemodal.init must be run first."
  | some m => Except.ok ⟨some (play m videoId none none)⟩

/-- `defaultConfig` with history integration enabled, as produced by
`init({history: true})`. -/
def histConfig : MConfig :=
  mergeMConfig defaultConfig { history := some true }

/-- Whether two equal entries sit next to each other in the pushed
history list (the situation the C2 invariant forbids). -/
def hasConsecDup : List JSVal → Bool
  | a :: b :: rest => (a = b) || hasConsecDup (b :: rest)
  | _ => false

/-- No two adjacent pushed entries carry the same string video id (null
and undefined entries may repeat). -/
def NoConsecDupStr (l : List JSVal) : Prop :=
  l.Chain' (fun a b =>
    match a, b with
    | JSVal.str x, JSVal.str y => x ≠ y
    | _, _ => True)

/-- Whether an event is a `YT.Player` construction. -/
def isConstructB (e : MEvent) : Bool :=
  match e with
  | MEvent.construct _ _ => true
  | _ => false

/-- Number of `YT.Player` constructions in an event trace. -/
def constructCount (l : List MEvent) : Nat :=
  (l.filter isConstructB).length

/-- The commands claim C1 counts: player constructions and
`loadVideoById` calls. -/
def isPlayerCmd (e : MEvent) : Bool :=
  match e with
  | MEvent.construct _ _ => true
  | MEvent.loadVideo _ => true
  | _ => false

end YTM



/-! ## Supporting lemmas for the QueryCodec -/

namespace Uri

theorem tokenize_cons_ne {c : Char} (rest : List Char) (hc : c ≠ '%') :
    tokenize (c :: rest) = (tokenize rest).map (fun ts => Tok.chr c :: ts) := by
  cases rest with
  | nil => simp [tokenize, hc]
  | cons x rest2 =>
    cases rest2 with
    | nil => simp [tokenize, hc]
    | cons y rest3 => simp [tokenize, hc]

theorem tokenize_pct_cons {h l : Char} {a b : Nat} (rest : List Char)
    (ha : hexVal h = some a) (hb : hexVal l = some b) :
    tokenize ('%' :: h :: l :: rest) =
      (tokenize rest).map (fun ts => Tok.byte (16 * a + b) :: ts) := by
  simp [tokenize, ha, hb]

theorem tokenize_no_pct {l : List Char} (h : ∀ c ∈ l, c ≠ '%') :
    tokenize l = some (l.map Tok.chr) := by
  induction l with
  | nil => rfl
  | cons c rest ih =>
    have hc : c ≠ '%' := h c (by simp)
    rw [tokenize_cons_ne rest hc, ih (fun d hd => h d (by simp [hd]))]
    rfl

theorem utf8DecodeGo_none_chr (c : Char) (rest : List Tok) :
    utf8DecodeGo none (Tok.chr c :: rest) =
      (utf8DecodeGo none rest).map (fun cs => c :: cs) := rfl

theorem utf8Decode_chrs (l : List Char) : utf8Decode (l.map Tok.chr) = some l := by
  induction l with
  | nil => rfl
  | cons c rest ih =>
    unfold utf8Decode at ih
    simp [utf8Decode, List.map_cons, utf8DecodeGo_none_chr, ih]

theorem plusToSpace_no_pct {l : List Char} (h : ∀ c ∈ l, c ≠ '%') :
    ∀ c ∈ plusToSpace l, c ≠ '%' := by
  intro c hc
  simp only [plusToSpace, List.mem_map] at hc
  obtain ⟨d, hd, rfl⟩ := hc
  by_cases hdp : d = '+'
  · simp [hdp]
  · simpa [hdp] using h d hd

theorem plusToSpace_eq_self {l : List Char} (h : ∀ c ∈ l, c ≠ '+') :
    plusToSpace l = l := by
  induction l with
  | nil => rfl
  | cons c rest ih =>
    have hc : c ≠ '+' := h c (by simp)
    simp [plusToSpace] at ih ⊢
    exact ⟨by simp [hc], ih (fun d hd => h d (by simp [hd]))⟩

theorem urlDecode_no_pct {l : List Char} (h : ∀ c ∈ l, c ≠ '%') :
    urlDecode_ l = some (plusToSpace l) := by
  simp [urlDecode_, decodeURIComponentJs, tokenize_no_pct (plusToSpace_no_pct h),
    utf8Decode_chrs]

theorem splitFirstEq_append {k : List Char} (v : List Char) (hk : '=' ∉ k) :
    splitFirstEq (k ++ '=' :: v) = some (k, v) := by
  induction k with
  | nil => simp [splitFirstEq]
  | cons c rest ih =>
    have hc : c ≠ '=' := fun h => hk (by simp [h])
    simp [splitFirstEq, hc, ih (fun h => hk (List.mem_cons_of_mem _ h))]

theorem splitFirstEq_none {s : List Char} (hs : '=' ∉ s) : splitFirstEq s = none := by
  induction s with
  | nil => rfl
  | cons c rest ih =>
    have hc : c ≠ '=' := fun h => hs (by simp [h])
    simp [splitFirstEq, hc, ih (fun h => hs (List.mem_cons_of_mem _ h))]

theorem splitFirstEq_mem {s k v : List Char} (h : splitFirstEq s = some (k, v)) :
    ∀ c ∈ v, c ∈ s := by
  induction s generalizing k with
  | nil => simp [splitFirstEq] at h
  | cons d rest ih =>
    by_cases hd : d = '='
    · simp [splitFirstEq, hd] at h
      obtain ⟨rfl, rfl⟩ := h
      intro c hc
      exact List.mem_cons_of_mem _ hc
    · rw [splitFirstEq, if_neg hd, Option.map_eq_some'] at h
      obtain ⟨⟨k2, v2⟩, hsp, hkv⟩ := h
      cases hkv
      intro c hc
      exact List.mem_cons_of_mem _ (ih hsp c hc)

theorem splitAmp_ne_nil (l : List Char) : splitAmp l ≠ [] := by
  cases l with
  | nil => simp [splitAmp]
  | cons c rest =>
    simp only [splitAmp]
    split
    · simp
    · split <;> simp

theorem splitAmp_mem {l x : List Char} (hx : x ∈ splitAmp l) :
    ∀ c ∈ x, c ∈ l := by
  induction l generalizing x with
  | nil =>
    simp [splitAmp] at hx
    simp [hx]
  | cons d rest ih =>
    by_cases hd : d = '&'
    · simp [splitAmp, hd] at hx
      rcases hx with rfl | hx
      · simp
      · intro c hc
        exact List.mem_cons_of_mem _ (ih hx c hc)
    · simp only [splitAmp, if_neg hd] at hx
      rcases hsp : splitAmp rest with _ | ⟨s, ss⟩
      · exact absurd hsp (splitAmp_ne_nil rest)
      · rw [hsp] at hx
        rcases List.mem_cons.mp hx with rfl | hx2
        · intro c hc
          rcases List.mem_cons.mp hc with rfl | hc2
          · simp
          · exact List.mem_cons_of_mem _ (ih (hsp ▸ List.mem_cons_self s ss) c hc2)
        · intro c hc
          exact List.mem_cons_of_mem _ (ih (hsp ▸ List.mem_cons_of_mem s hx2) c hc)

theorem stripLeadingQm_mem {l : List Char} : ∀ c ∈ stripLeadingQm l, c ∈ l := by
  cases l with
  | nil => simp [stripLeadingQm]
  | cons d rest =>
    by_cases hd : d = '?'
    · rw [stripLeadingQm, if_pos hd]
      intro c hc
      exact List.mem_cons_of_mem _ hc
    · rw [stripLeadingQm, if_neg hd]
      intro c hc
      exact hc

theorem parseSegment_no_pct {seg : List Char} (h : ∀ c ∈ seg, c ≠ '%') :
    (parseSegment seg).isSome := by
  unfold parseSegment
  rcases hsp : splitFirstEq seg with _ | ⟨k, v⟩
  · simp
  · have hv : ∀ c ∈ v, c ≠ '%' := fun c hc => h c (splitFirstEq_mem hsp c hc)
    simp [urlDecode_no_pct hv]

theorem mapMOpt_isSome {f : α → Option β} {l : List α} (h : ∀ a ∈ l, (f a).isSome) :
    (mapMOpt f l).isSome := by
  induction l with
  | nil => simp [mapMOpt]
  | cons a rest ih =>
    have ha := h a (by simp)
    have hrest := ih (fun b hb => h b (by simp [hb]))
    unfold mapMOpt
    rcases hfa : f a with _ | b
    · simp [hfa] at ha
    · rcases hrec : mapMOpt f rest with _ | bs
      · simp [hrec] at hrest
      · simp

theorem parseQueryString_no_pct {q : String} (h : ∀ c ∈ q.data, c ≠ '%') :
    (parseQueryString q).isSome := by
  unfold parseQueryString
  split
  · simp
  · exact mapMOpt_isSome (fun seg hseg =>
      parseSegment_no_pct (fun c hc =>
        h c (stripLeadingQm_mem c (splitAmp_mem hseg c hc))))

theorem matchKeyAt_mem {key l v : List Char} (h : matchKeyAt key l = some v) :
    ∀ c ∈ v, c ∈ l := by
  induction key generalizing l with
  | nil =>
    cases l with
    | nil => simp [matchKeyAt] at h
    | cons d rest =>
      by_cases hd : d = '='
      · simp [matchKeyAt, hd] at h
        subst h
        intro c hc
        exact List.mem_cons_of_mem _ ((rest.takeWhile_sublist _).mem hc)
      · simp [matchKeyAt, hd] at h
  | cons k ks ih =>
    cases l with
    | nil => simp [matchKeyAt] at h
    | cons d rest =>
      by_cases hd : d = k
      · simp [matchKeyAt, hd] at h
        intro c hc
        exact List.mem_cons_of_mem _ (ih h c hc)
      · simp [matchKeyAt, hd] at h

theorem findKeyMatch_mem {key uri v : List Char} (h : findKeyMatch key uri = some v) :
    ∀ c ∈ v, c ∈ uri := by
  induction uri with
  | nil => simp [findKeyMatch] at h
  | cons d rest ih =>
    by_cases hd : d = '?' ∨ d = '&'
    · simp only [findKeyMatch, if_pos hd] at h
      rcases hm : matchKeyAt key rest with _ | w
      · rw [hm] at h
        intro c hc
        exact List.mem_cons_of_mem _ (ih h c hc)
      · rw [hm] at h
        cases h
        intro c hc
        exact List.mem_cons_of_mem _ (matchKeyAt_mem hm c hc)
    · simp only [findKeyMatch, if_neg hd] at h
      intro c hc
      exact List.mem_cons_of_mem _ (ih h c hc)

theorem getParameterValue_no_pct {k u : String} (h : ∀ c ∈ u.data, c ≠ '%') :
    (getParameterValue k u).isSome := by
  unfold getParameterValue
  rcases hf : findKeyMatch k.data u.data with _ | raw
  · simp
  · have hraw : ∀ c ∈ raw, c ≠ '%' := fun c hc => h c (findKeyMatch_mem hf c hc)
    by_cases hr : raw = []
    · simp [hr]
    · simp [hr, urlDecode_no_pct hraw]

end Uri

/-! ## Claims C3, C6 and C10: the QueryCodec decoding operations -/

namespace Uri

/-- C3 counterexample: contrary to the claim, a value holding a malformed
percent-escape sequence makes the decoding operations throw: on `"a=%"`
both `parseQueryString` and `parseQueryMap` propagate a `URIError`
(modelled by `none`), and so does `getParameterValue` on a matching value
with a malformed escape. -/
theorem c3_counterexample :
    parseQueryString "a=%" = none ∧ parseQueryMap "a=%" = none ∧
      getParameterValue "a" "https://x?a=%zz" = none := by
  decide

/-- C3 as amended: the decoding operations never throw on inputs free of
`%` characters (hence with no percent-escapes at all); missing `=` and
empty input degrade as described. -/
theorem c3_no_throw_without_escapes (q k u : String)
    (hq : ∀ c ∈ q.data, c ≠ '%') (hu : ∀ c ∈ u.data, c ≠ '%') :
    (parseQueryString q).isSome ∧ (parseQueryMap q).isSome ∧
      (getParameterValue k u).isSome := by
  refine ⟨parseQueryString_no_pct hq, ?_, getParameterValue_no_pct hu⟩
  have h1 := parseQueryString_no_pct hq
  unfold parseQueryMap
  rcases hp : parseQueryString q with _ | l
  · simp [hp] at h1
  · simp

/-- Witness for the amended C3 on concrete malformed-but-escape-free
inputs. -/
theorem c3_no_throw_without_escapes_witness :
    (parseQueryString "a&=&b").isSome ∧ (parseQueryMap "a&=&b").isSome ∧
      (getParameterValue "k" "https://x?k=v&a").isSome :=
  c3_no_throw_without_escapes "a&=&b" "k" "https://x?k=v&a" (by decide) (by decide)

/-- C6: `decodePairs` (`parseQueryString`) visits zero pairs on `""`, one
pair `("a","")` on `"a"`, the pairs `("a","1")` then `("b","2")` in order
on `"a=1&b=2"`; it strips one leading `?`, splits the remainder on `&`,
splits every segment at its first `=` (keys are never decoded, values are
percent-decoded after `+` is turned into a space), and a segment without
`=` becomes `(segment, "")`. -/
theorem c6_decodePairs_behaviour :
    parseQueryString "" = some [] ∧
    parseQueryString "a" = some [("a", "")] ∧
    parseQueryString "a=1&b=2" = some [("a", "1"), ("b", "2")] ∧
    (∀ l : List Char, parseQueryString (String.mk ('?' :: l)) =
      mapMOpt parseSegment (splitAmp l)) ∧
    (∀ q : List Char, q ≠ [] → q.head? ≠ some '?' →
      parseQueryString (String.mk q) = mapMOpt parseSegment (splitAmp q)) ∧
    (∀ k v : List Char, '=' ∉ k →
      parseSegment (k ++ '=' :: v) =
        (urlDecode_ v).map (fun dv => (String.mk k, String.mk dv))) ∧
    (∀ s : List Char, '=' ∉ s → parseSegment s = some (String.mk s, "")) := by
  refine ⟨by decide, by decide, by decide, ?_, ?_, ?_, ?_⟩
  · intro l
    simp [parseQueryString, stripLeadingQm]
  · intro q hq hhead
    cases q with
    | nil => exact absurd rfl hq
    | cons c rest =>
      have hc : c ≠ '?' := by
        intro h
        exact hhead (by simp [h])
      simp [parseQueryString, stripLeadingQm, hc]
  · intro k v hk
    simp [parseSegment, splitFirstEq_append v hk]
  · intro s hs
    simp [parseSegment, splitFirstEq_none hs]

/-- Witness for C6 at concrete segments with hypotheses discharged. -/
theorem c6_decodePairs_behaviour_witness :
    parseQueryString (String.mk ['x', 'y']) = mapMOpt parseSegment (splitAmp ['x', 'y']) ∧
    parseSegment (['a'] ++ '=' :: ['1', '%', '3', 'D']) =
      (urlDecode_ ['1', '%', '3', 'D']).map (fun dv => (String.mk ['a'], String.mk dv)) ∧
    parseSegment ['a', 'b'] = some (String.mk ['a', 'b'], "") :=
  ⟨c6_decodePairs_behaviour.2.2.2.2.1 ['x', 'y'] (by decide) (by decide),
   c6_decodePairs_behaviour.2.2.2.2.2.1 ['a'] ['1', '%', '3', 'D'] (by decide),
   c6_decodePairs_behaviour.2.2.2.2.2.2 ['a', 'b'] (by decide)⟩

/-- C10: a bare `"?"` is not treated as empty input, because the
emptiness check precedes the `?` stripping: the visitor is invoked once
with `("", "")` and the decoded map is the single-entry map. -/
theorem c10_bare_question_mark :
    parseQueryString "?" = some [("", "")] ∧ parseQueryMap "?" = some [("", "")] := by
  decide

theorem takeWhile_all {p : Char → Bool} {l : List Char} (h : ∀ c ∈ l, p c = true) :
    l.takeWhile p = l := by
  induction l with
  | nil => rfl
  | cons c rest ih =>
    simp [List.takeWhile_cons, h c (by simp), ih (fun d hd => h d (by simp [hd]))]

theorem unreserved_excludes {c : Char} (h : unreservedJs c = true) :
    c ≠ '%' ∧ c ≠ '+' ∧ c ≠ '&' ∧ c ≠ '#' ∧ c ≠ '=' ∧ c ≠ '?' := by
  refine ⟨?_, ?_, ?_, ?_, ?_, ?_⟩ <;> (rintro rfl; exact absurd h (by decide))

theorem matchKeyAt_self (k v : List Char) :
    matchKeyAt k (k ++ '=' :: v) =
      some (v.takeWhile (fun d => decide (d ≠ '&' ∧ d ≠ '#'))) := by
  induction k with
  | nil => simp [matchKeyAt]
  | cons c ks ih => simp [matchKeyAt, ih]

end Uri

/-! ## Claim C4: `getParameterValue` -/

namespace Uri

/-- C4 counterexample: `getParameterValue` is not equivalent to decoding
the query into a map and reading the key.  On `"https://x?k="` the key
`k` is present in the decoded map (with value `""`), yet
`getParameterValue` returns `null` because the captured empty string is
falsy.  Moreover the key escaping touches only the first `[` (the regex
`/[\[]/` is not global), not every occurrence. -/
theorem c4_counterexample :
    getParameterValue "k" "https://x?k=" = some none ∧
      parseQueryMap "k=" = some [("k", "")] ∧
      escapeKey "a[b[" = "a\\[b[" := by
  decide

/-- C4 as amended: for a key that acts as a literal regex (alphanumeric)
the lookup returns the decoded capture of the FIRST occurrence of
`[?&]key=` when that capture is nonempty, and `null` both when the key
is absent and when the captured value is empty.  The `hv` bound keeps
the value free of separators and escapes so the capture is the whole
value and decodes to itself. -/
theorem c4_first_match_semantics (k v : List Char)
    (hka : ∀ c ∈ k, c.isAlphanum = true)
    (hv : ∀ c ∈ v, unreservedJs c = true) :
    getParameterValue (String.mk k) (String.mk ("https://x?".data ++ (k ++ '=' :: v))) =
      some (if v = [] then none else some (String.mk v)) ∧
    getParameterValue "missing" "https://x?k=v" = some none := by
  refine ⟨?_, by decide⟩
  have hvsafe : ∀ c ∈ v, (fun d => decide (d ≠ '&' ∧ d ≠ '#')) c = true := by
    intro c hc
    have := unreserved_excludes (hv c hc)
    simp [this.2.2.1, this.2.2.2.1]
  have hpre : "https://x?".data = ['h', 't', 't', 'p', 's', ':', '/', '/', 'x', '?'] := rfl
  have hdata : (String.mk ("https://x?".data ++ (k ++ '=' :: v))).data =
      'h' :: 't' :: 't' :: 'p' :: 's' :: ':' :: '/' :: '/' :: 'x' :: '?' :: (k ++ '=' :: v) := by
    rw [show (String.mk ("https://x?".data ++ (k ++ '=' :: v))).data =
      "https://x?".data ++ (k ++ '=' :: v) from rfl, hpre]
    rfl
  unfold getParameterValue
  rw [show (String.mk k).data = k from rfl, hdata]
  rw [findKeyMatch, if_neg (by decide)]
  rw [findKeyMatch, if_neg (by decide)]
  rw [findKeyMatch, if_neg (by decide)]
  rw [findKeyMatch, if_neg (by decide)]
  rw [findKeyMatch, if_neg (by decide)]
  rw [findKeyMatch, if_neg (by decide)]
  rw [findKeyMatch, if_neg (by decide)]
  rw [findKeyMatch, if_neg (by decide)]
  rw [findKeyMatch, if_neg (by decide)]
  rw [findKeyMatch, if_pos (by decide)]
  rw [matchKeyAt_self k v, takeWhile_all hvsafe]
  by_cases hve : v = []
  · simp [hve]
  · have hvnp : ∀ c ∈ v, c ≠ '%' := fun c hc => (unreserved_excludes (hv c hc)).1
    have hvplus : ∀ c ∈ v, c ≠ '+' := fun c hc => (unreserved_excludes (hv c hc)).2.1
    simp [hve, urlDecode_no_pct hvnp, plusToSpace_eq_self hvplus]

/-- Witness for the amended C4 at `k = "k"`, `v = "v"`. -/
theorem c4_first_match_semantics_witness :
    getParameterValue (String.mk ['k'])
        (String.mk ("https://x?".data ++ (['k'] ++ '=' :: ['v']))) =
      some (if ['v'] = ([] : List Char) then none else some (String.mk ['v'])) ∧
    getParameterValue "missing" "https://x?k=v" = some none :=
  c4_first_match_semantics ['k'] ['v'] (by decide) (by decide)

end Uri

/-! ## Claim C2: consecutive history pushes -/

namespace YTM

theorem setVisible_hist (s : MState) (e : Bool) :
    (setVisible s e).histState = s.histState ∧ (setVisible s e).pushes = s.pushes := by
  unfold setVisible
  split_ifs <;> simp

theorem saCallbacks_hist (s : MState) (active : Bool) (ov : Option String) :
    (saCallbacks s active ov).histState = s.histState ∧
      (saCallbacks s active ov).pushes = s.pushes := by
  unfold saCallbacks
  split_ifs <;>
    simp [apply_ite MState.histState, apply_ite MState.pushes]

theorem saHistoryUpd_push_inv (t : MState) (active : Bool) (ov : Option String)
    (h1 : t.histState = t.pushes.head?) (h2 : NoConsecDupStr t.pushes) :
    (saHistoryUpd t active ov).histState = (saHistoryUpd t active ov).pushes.head? ∧
      NoConsecDupStr (saHistoryUpd t active ov).pushes := by
  simp only [saHistoryUpd]
  split_ifs with ha hl
  · exact ⟨h1, h2⟩
  · refine ⟨rfl, ?_⟩
    show NoConsecDupStr (saVideoId t ov :: t.pushes)
    cases hp : t.pushes with
    | nil => simp [NoConsecDupStr]
    | cons p rest =>
      refine List.chain'_cons.mpr ⟨?_, hp ▸ h2⟩
      rcases hvid : saVideoId t ov with _ | _ | x
      · trivial
      · trivial
      · rcases hpv : p with _ | _ | y
        · trivial
        · trivial
        · show x ≠ y
          rw [hvid] at hl
          have hst : t.histState = some (JSVal.str y) := by rw [h1, hp, hpv]; rfl
          rw [hst] at hl
          simp only [looseEq] at hl
          simp at hl
          exact fun he => hl he.symm
  · refine ⟨rfl, ?_⟩
    show NoConsecDupStr (JSVal.null :: t.pushes)
    cases hp : t.pushes with
    | nil => simp [NoConsecDupStr]
    | cons p rest =>
      exact List.chain'_cons.mpr ⟨trivial, hp ▸ h2⟩

theorem setActive_push_inv (s : MState) (active : Bool) (ov : Option String)
    (ou : Option Bool) (h1 : s.histState = s.pushes.head?)
    (h2 : NoConsecDupStr s.pushes) :
    (setActive s active ov ou).histState = (setActive s active ov ou).pushes.head? ∧
      NoConsecDupStr (setActive s active ov ou).pushes := by
  simp only [setActive]
  have hc := saCallbacks_hist s active ov
  have hv := setVisible_hist (saCallbacks s active ov) active
  have hv1 : (setVisible (saCallbacks s active ov) active).histState = s.pushes.head? := by
    rw [hv.1, hc.1, h1]
  have hv2 : (setVisible (saCallbacks s active ov) active).pushes = s.pushes := by
    rw [hv.2, hc.2]
  split_ifs with hh hu
  all_goals
    first
      | exact ⟨by rw [hv1, hv2], by rw [hv2]; exact h2⟩
      | exact saHistoryUpd_push_inv _ active ov (by rw [hv1, hv2]) (by rw [hv2]; exact h2)

/-- C2 counterexample: with history enabled, open "a" then close twice.
The close path pushes its null entry unconditionally, so the pushed
sequence (most recent first) carries two consecutive entries with the
same (null) `videoId`, contradicting the claimed invariant. -/
theorem c2_counterexample :
    (runSA (mkModal histConfig false 0) [.openSA "a", .closeSA, .closeSA]).pushes =
      [JSVal.null, JSVal.null, JSVal.str "a"] ∧
    hasConsecDup (runSA (mkModal histConfig false 0)
      [.openSA "a", .closeSA, .closeSA]).pushes = true := by
  decide

/-- C2 as amended: across every sequence of open/close operations the
pushed history entries never contain two consecutive entries carrying
the same non-null video id (the guard compares against the current
history entry before pushing); the null entry pushed on close is
unconditional and may duplicate a preceding null entry. -/
theorem c2_no_consecutive_duplicate_ids (c : MConfig) (mob : Bool) (pg : Nat)
    (ops : List SAOp) :
    NoConsecDupStr (runSA (mkModal c mob pg) ops).pushes := by
  suffices h : ∀ s : MState, s.histState = s.pushes.head? → NoConsecDupStr s.pushes →
      (runSA s ops).histState = (runSA s ops).pushes.head? ∧
        NoConsecDupStr (runSA s ops).pushes by
    exact (h (mkModal c mob pg) rfl (by simp [mkModal, NoConsecDupStr])).2
  induction ops with
  | nil => exact fun s h1 h2 => ⟨h1, h2⟩
  | cons op rest ih =>
    intro s h1 h2
    cases op with
    | openSA v =>
      have hstep := setActive_push_inv s true (some v) none h1 h2
      exact ih (setActive s true (some v) none) hstep.1 hstep.2
    | closeSA =>
      have hstep := setActive_push_inv s false none none h1 h2
      exact ih (setActive s false none none) hstep.1 hstep.2

end YTM

/-! ## Claim C1: player construction and load commands -/

namespace YTM

theorem constructCount_append (l1 l2 : List MEvent) :
    constructCount (l1 ++ l2) = constructCount l1 + constructCount l2 := by
  simp [constructCount, List.filter_append]

theorem constructCount_of_no_playerCmd {l : List MEvent}
    (h : ∀ e ∈ l, isPlayerCmd e = false) : constructCount l = 0 := by
  rw [constructCount, List.filter_eq_nil_iff.mpr, List.length_nil]
  intro e he
  have := h e he
  cases e <;> simp_all [isPlayerCmd, isConstructB]

theorem filter_playerCmd_of_none {l : List MEvent}
    (h : ∀ e ∈ l, isPlayerCmd e = false) : l.filter isPlayerCmd = [] :=
  List.filter_eq_nil_iff.mpr (fun e he => by simp [h e he])

theorem setVisible_core (s : MState) (en : Bool) :
    (setVisible s en).player = s.player ∧
      (setVisible s en).activeVideoId = s.activeVideoId ∧
      (setVisible s en).config = s.config ∧
      (setVisible s en).isMobile = s.isMobile ∧
      ∃ l, (setVisible s en).events = s.events ++ l ∧ ∀ e ∈ l, isPlayerCmd e = false := by
  simp only [setVisible]
  split_ifs <;>
    first
      | exact ⟨rfl, rfl, rfl, rfl, [MEvent.playVideo], rfl, by simp [isPlayerCmd]⟩
      | exact ⟨rfl, rfl, rfl, rfl, [MEvent.pauseVideo], rfl, by simp [isPlayerCmd]⟩
      | exact ⟨rfl, rfl, rfl, rfl, [], by simp, by simp⟩

theorem saCallbacks_core (s : MState) (a : Bool) (ov : Option String) :
    (saCallbacks s a ov).player = s.player ∧
      (saCallbacks s a ov).activeVideoId = s.activeVideoId ∧
      (saCallbacks s a ov).config = s.config ∧
      (saCallbacks s a ov).isMobile = s.isMobile ∧
      ∃ l, (saCallbacks s a ov).events = s.events ++ l ∧
        ∀ e ∈ l, isPlayerCmd e = false := by
  simp only [saCallbacks]
  split_ifs <;>
    first
      | exact ⟨rfl, rfl, rfl, rfl, [MEvent.openCallback ov], rfl, by simp [isPlayerCmd]⟩
      | exact ⟨rfl, rfl, rfl, rfl,
          [MEvent.openCallback s.lastActiveVideoId], rfl, by simp [isPlayerCmd]⟩
      | exact ⟨rfl, rfl, rfl, rfl, [MEvent.closeCallback ov], rfl, by simp [isPlayerCmd]⟩
      | exact ⟨rfl, rfl, rfl, rfl,
          [MEvent.closeCallback s.lastActiveVideoId], rfl, by simp [isPlayerCmd]⟩
      | exact ⟨rfl, rfl, rfl, rfl, [], by simp, by simp⟩

theorem saHistoryUpd_core (t : MState) (a : Bool) (ov : Option String) :
    (saHistoryUpd t a ov).events = t.events ∧
      (saHistoryUpd t a ov).player = t.player ∧
      (saHistoryUpd t a ov).activeVideoId = t.activeVideoId ∧
      (saHistoryUpd t a ov).config = t.config ∧
      (saHistoryUpd t a ov).isMobile = t.isMobile := by
  simp only [saHistoryUpd]
  split_ifs <;> simp [pushEntry]

theorem setActive_core (s : MState) (a : Bool) (ov : Option String) (ou : Option Bool) :
    (setActive s a ov ou).player = s.player ∧
      (setActive s a ov ou).activeVideoId = s.activeVideoId ∧
      (setActive s a ov ou).config = s.config ∧
      (setActive s a ov ou).isMobile = s.isMobile ∧
      ∃ l, (setActive s a ov ou).events = s.events ++ l ∧
        ∀ e ∈ l, isPlayerCmd e = false := by
  obtain ⟨hc1, hc2, hc3, hc4, l1, hc5, hc6⟩ := saCallbacks_core s a ov
  obtain ⟨hv1, hv2, hv3, hv4, l2, hv5, hv6⟩ := setVisible_core (saCallbacks s a ov) a
  have hcomb : ∀ e ∈ l1 ++ l2, isPlayerCmd e = false := by
    intro e he
    rcases List.mem_append.mp he with h | h
    · exact hc6 e h
    · exact hv6 e h
  have hev : (setVisible (saCallbacks s a ov) a).events = s.events ++ (l1 ++ l2) := by
    rw [hv5, hc5, List.append_assoc]
  simp only [setActive]
  split_ifs
  all_goals
    first
      | exact ⟨hv1.trans hc1, hv2.trans hc2, hv3.trans hc3, hv4.trans hc4,
          l1 ++ l2, hev, hcomb⟩
      | (obtain ⟨hh1, hh2, hh3, hh4, hh5⟩ :=
          saHistoryUpd_core (setVisible (saCallbacks s a ov) a) a ov
         exact ⟨hh2.trans (hv1.trans hc1), hh3.trans (hv2.trans hc2),
           hh4.trans (hv3.trans hc3), hh5.trans (hv4.trans hc4), l1 ++ l2,
           hh1.trans hev, hcomb⟩)

/-- The fresh-construction branch of `play`. -/
theorem play_fresh (s : MState) (v : String) (u : Option Bool) (t : Option Nat)
    (hmob : (s.config.useHandlerOnMobile && s.isMobile) = false)
    (hp : s.player = false) :
    (play s v u t).player = true ∧
      (play s v u t).activeVideoId = some v ∧
      (play s v u t).config = s.config ∧
      (play s v u t).isMobile = s.isMobile ∧
      ∃ l, (play s v u t).events = s.events ++ l ++ [MEvent.construct v (startOf t)] ∧
        ∀ e ∈ l, isPlayerCmd e = false := by
  obtain ⟨h1, h2, h3, h4, l, h5, h6⟩ := setActive_core s true (some v) u
  have hp1 : (setActive s true (some v) u).player = false := h1.trans hp
  simp only [play, hmob]
  rw [if_neg (by simp)]
  rw [if_neg (by simp [hp1]), if_neg (by simp [hp1])]
  refine ⟨rfl, rfl, h3, h4, l, ?_, h6⟩
  show (setActive s true (some v) u).events ++ [MEvent.construct v _] = _
  rw [h5, List.append_assoc]

/-- The idempotent branch of `play`: the player exists and already shows
the requested video, so `play` is exactly `setActive_` and issues no
player command. -/
theorem play_same (s : MState) (v : String) (u : Option Bool) (t : Option Nat)
    (hmob : (s.config.useHandlerOnMobile && s.isMobile) = false)
    (hp : s.player = true) (ha : s.activeVideoId = some v) :
    play s v u t = setActive s true (some v) u := by
  obtain ⟨h1, h2, _h3, _h4, l, _h5, _h6⟩ := setActive_core s true (some v) u
  simp only [play, hmob]
  rw [if_neg (by simp)]
  rw [if_pos (by simp [h1, hp, h2, ha, jsEqStr])]

/-- The load branch of `play`: the player exists and shows another
video. -/
theorem play_load (s : MState) (v : String) (u : Option Bool) (t : Option Nat)
    (hmob : (s.config.useHandlerOnMobile && s.isMobile) = false)
    (hp : s.player = true) (ha : jsEqStr v s.activeVideoId = false) :
    (play s v u t).player = true ∧
      (play s v u t).activeVideoId = some v ∧
      (play s v u t).config = s.config ∧
      (play s v u t).isMobile = s.isMobile ∧
      ∃ l, (play s v u t).events = s.events ++ l ++ [MEvent.loadVideo v] ∧
        ∀ e ∈ l, isPlayerCmd e = false := by
  obtain ⟨h1, h2, h3, h4, l, h5, h6⟩ := setActive_core s true (some v) u
  have hp1 : (setActive s true (some v) u).player = true := h1.trans hp
  have ha1 : jsEqStr v (setActive s true (some v) u).activeVideoId = false := by
    rw [h2]
    exact ha
  simp only [play, hmob]
  rw [if_neg (by simp)]
  rw [if_neg (by simp [ha1]), if_pos hp1]
  refine ⟨hp1, rfl, h3, h4, l, ?_, h6⟩
  show (setActive s true (some v) u).events ++ [MEvent.loadVideo v] = _
  rw [h5, List.append_assoc]

/-- The claim C1 invariant: the construction count matches the player
flag, hence never exceeds one. -/
def ConstructInv (s : MState) : Prop :=
  constructCount s.events = (if s.player then 1 else 0)

theorem setActive_constructInv {s : MState} (a : Bool) (ov : Option String)
    (ou : Option Bool) (h : ConstructInv s) :
    ConstructInv (setActive s a ov ou) := by
  obtain ⟨h1, _h2, _h3, _h4, l, h5, h6⟩ := setActive_core s a ov ou
  unfold ConstructInv at h ⊢
  rw [h1, h5, constructCount_append, constructCount_of_no_playerCmd h6, h]
  simp

theorem setVisible_constructInv {s : MState} (en : Bool) (h : ConstructInv s) :
    ConstructInv (setVisible s en) := by
  obtain ⟨h1, _h2, _h3, _h4, l, h5, h6⟩ := setVisible_core s en
  unfold ConstructInv at h ⊢
  rw [h1, h5, constructCount_append, constructCount_of_no_playerCmd h6, h]
  simp

theorem play_constructInv {s : MState} (v : String) (u : Option Bool) (t : Option Nat)
    (h : ConstructInv s) : ConstructInv (play s v u t) := by
  by_cases hmob : (s.config.useHandlerOnMobile && s.isMobile) = true
  · unfold ConstructInv at h ⊢
    simp only [play, hmob]
    rw [if_pos (by simp)]
    simpa [constructCount_append, constructCount, isConstructB] using h
  · rw [Bool.not_eq_true] at hmob
    by_cases hp : s.player = true
    · by_cases ha : jsEqStr v s.activeVideoId = true
      · have ha2 : s.activeVideoId = some v := by
          rcases hact : s.activeVideoId with _ | w
          · rw [hact] at ha
            simp [jsEqStr] at ha
          · rw [hact] at ha
            simp [jsEqStr] at ha
            rw [ha]
        rw [play_same s v u t hmob hp ha2]
        exact setActive_constructInv true (some v) u h
      · rw [Bool.not_eq_true] at ha
        obtain ⟨h1, _h2, _h3, _h4, l, h5, h6⟩ := play_load s v u t hmob hp ha
        unfold ConstructInv at h ⊢
        rw [h1, h5, constructCount_append, constructCount_append,
          constructCount_of_no_playerCmd h6]
        rw [hp] at h
        simpa [constructCount, isConstructB] using h
    · rw [Bool.not_eq_true] at hp
      obtain ⟨h1, _h2, _h3, _h4, l, h5, h6⟩ := play_fresh s v u t hmob hp
      unfold ConstructInv at h ⊢
      rw [h1, h5, constructCount_append, constructCount_append,
        constructCount_of_no_playerCmd h6]
      rw [hp] at h
      simpa [constructCount, isConstructB] using h

theorem fireListeners_constructInv {s : MState} (code : Nat) (ids : List Nat)
    (h : ConstructInv s) : ConstructInv (fireListeners s code ids) := by
  induction ids generalizing s with
  | nil => exact h
  | cons id rest ih =>
    simp only [fireListeners]
    split_ifs with hc
    · exact ih (setActive_constructInv false none none h)
    · exact ih h

theorem onHistoryChange_str (s : MState) (w : String) :
    onHistoryChange s (some (JSVal.str w)) =
      if w.data ≠ [] then
        play { s with histState := some (JSVal.str w) } w (some false) none
      else setVisible { s with histState := some (JSVal.str w) } false := rfl

theorem stepOp_constructInv {s : MState} (op : MOp) (h : ConstructInv s) :
    ConstructInv (stepOp s op) := by
  cases op with
  | doPlay v u t => exact play_constructInv v u t h
  | doClose => exact setActive_constructInv false none none h
  | keydown code => exact fireListeners_constructInv code s.listeners h
  | popstate st =>
    show ConstructInv (if s.config.history then onHistoryChange s st
      else { s with histState := st })
    have hbase : ConstructInv { s with histState := st } := h
    split_ifs with hh
    · rcases st with _ | v
      · exact setVisible_constructInv false hbase
      · rcases v with _ | _ | w
        · exact setVisible_constructInv false hbase
        · exact setVisible_constructInv false hbase
        · rw [onHistoryChange_str]
          split_ifs with hw
          · exact play_constructInv w (some false) none hbase
          · exact setVisible_constructInv false hbase
    · exact hbase

theorem runOps_constructInv {s : MState} (ops : List MOp) (h : ConstructInv s) :
    ConstructInv (runOps s ops) := by
  induction ops generalizing s with
  | nil => exact h
  | cons op rest ih => exact ih (stepOp_constructInv op h)

/-- C1: from a fresh modal (mobile redirect not taken), playing the same
video twice constructs the player exactly once and the second call issues
no further construction or load command; playing "abc" then "xyz" issues
exactly one construction followed by exactly one `loadVideoById`, ending
with `activeVideoId = "xyz"`; and across EVERY interaction sequence, in
any environment, at most one player handle is ever constructed. -/
theorem c1_player_constructed_once (c : MConfig) (pg : Nat) (v : String) :
    (constructCount (play (play (mkModal c false pg) v none none) v none none).events = 1 ∧
      (play (play (mkModal c false pg) v none none) v none none).events.filter isPlayerCmd =
        (play (mkModal c false pg) v none none).events.filter isPlayerCmd) ∧
    ((play (play (mkModal c false pg) "abc" none none) "xyz" none none).events.filter
        isPlayerCmd = [MEvent.construct "abc" none, MEvent.loadVideo "xyz"] ∧
      (play (play (mkModal c false pg) "abc" none none) "xyz" none none).activeVideoId =
        some "xyz") ∧
    (∀ (mob : Bool) (ops : List MOp),
      constructCount (runOps (mkModal c mob pg) ops).events ≤ 1) := by
  have hmob0 : ((mkModal c false pg).config.useHandlerOnMobile &&
      (mkModal c false pg).isMobile) = false := by
    simp [mkModal]
  refine ⟨?_, ?_, ?_⟩
  · obtain ⟨f1, f2, f3, f4, l, f5, f6⟩ :=
      play_fresh (mkModal c false pg) v none none hmob0 rfl
    have hmob1 : ((play (mkModal c false pg) v none none).config.useHandlerOnMobile &&
        (play (mkModal c false pg) v none none).isMobile) = false := by
      rw [f3, f4]
      exact hmob0
    rw [play_same (play (mkModal c false pg) v none none) v none none hmob1 f1 f2]
    obtain ⟨s1, s2, s3, s4, l2, s5, s6⟩ :=
      setActive_core (play (mkModal c false pg) v none none) true (some v) none
    constructor
    · rw [s5, constructCount_append, constructCount_of_no_playerCmd s6, f5]
      rw [show (mkModal c false pg).events = [] from rfl]
      rw [constructCount_append, constructCount_append,
        constructCount_of_no_playerCmd f6]
      simp [constructCount, isConstructB]
    · rw [s5, List.filter_append, filter_playerCmd_of_none s6, List.append_nil]
  · obtain ⟨f1, f2, f3, f4, l, f5, f6⟩ :=
      play_fresh (mkModal c false pg) "abc" none none hmob0 rfl
    have hmob1 : ((play (mkModal c false pg) "abc" none none).config.useHandlerOnMobile &&
        (play (mkModal c false pg) "abc" none none).isMobile) = false := by
      rw [f3, f4]
      exact hmob0
    have hne : jsEqStr "xyz" (play (mkModal c false pg) "abc" none none).activeVideoId =
        false := by
      rw [f2]
      simp [jsEqStr]
    obtain ⟨d1, d2, d3, d4, l2, d5, d6⟩ :=
      play_load (play (mkModal c false pg) "abc" none none) "xyz" none none hmob1 f1 hne
    constructor
    · rw [d5, f5]
      rw [show (mkModal c false pg).events = [] from rfl]
      simp [List.filter_append, filter_playerCmd_of_none f6,
        filter_playerCmd_of_none d6, isPlayerCmd, startOf]
    · exact d2
  · intro mob ops
    have h0 : ConstructInv (mkModal c mob pg) := by
      unfold ConstructInv
      simp [mkModal, constructCount]
    have h1 := runOps_constructInv ops h0
    unfold ConstructInv at h1
    rw [h1]
    split_ifs <;> simp

end YTM


/-! ## Claim C5: the decode/encode round-trip -/

namespace Uri

/-- `String.mk` undoes `String.data`. -/
theorem strMk_data (s : String) : String.mk s.data = s := rfl

/-- The token list produced by tokenizing the encoding of one
character. -/
def encToks (c : Char) : List Tok :=
  if unreservedJs c then [Tok.chr c] else (utf8Bytes c.toNat).map Tok.byte

theorem hexVal_hexChar : ∀ n : Nat, n < 16 → hexVal (hexChar n) = some n := by
  decide

theorem hexChar_ne : ∀ n : Nat, n < 16 →
    hexChar n ≠ '+' ∧ hexChar n ≠ '&' ∧ hexChar n ≠ '=' := by
  decide

theorem tokenize_pct {b : Nat} (hb : b < 256) (rest : List Char) :
    tokenize (pctByte b ++ rest) = (tokenize rest).map (fun ts => Tok.byte b :: ts) := by
  have h1 : b / 16 < 16 := by omega
  have h2 : b % 16 < 16 := by omega
  have := tokenize_pct_cons rest (hexVal_hexChar (b / 16) h1) (hexVal_hexChar (b % 16) h2)
  rw [show pctByte b ++ rest = '%' :: hexChar (b / 16) :: hexChar (b % 16) :: rest from rfl,
    this, show 16 * (b / 16) + b % 16 = b by omega]

theorem tokenize_pcts {bs : List Nat} (hbs : ∀ b ∈ bs, b < 256) (rest : List Char) :
    tokenize (concatMap pctByte bs ++ rest) =
      (tokenize rest).map (fun ts => bs.map Tok.byte ++ ts) := by
  induction bs with
  | nil => simp [concatMap]
  | cons b bs2 ih =>
    rw [show concatMap pctByte (b :: bs2) ++ rest =
      pctByte b ++ (concatMap pctByte bs2 ++ rest) from by simp [concatMap],
      tokenize_pct (hbs b (by simp)) _, ih (fun x hx => hbs x (by simp [hx]))]
    cases tokenize rest <;> simp

theorem utf8Bytes_lt256 {n : Nat} (hn : n < 1114112) : ∀ b ∈ utf8Bytes n, b < 256 := by
  intro b hb
  unfold utf8Bytes at hb
  split_ifs at hb <;> simp at hb <;> omega

theorem tokenize_encChar (c : Char) (rest : List Char) :
    tokenize (encChar c ++ rest) = (tokenize rest).map (fun ts => encToks c ++ ts) := by
  have hval : c.toNat < 55296 ∨ (57343 < c.toNat ∧ c.toNat < 1114112) := c.valid
  by_cases hu : unreservedJs c = true
  · have hc : c ≠ '%' := by
      intro h
      exact absurd (h ▸ hu) (by decide)
    rw [show encChar c ++ rest = c :: rest from by simp [encChar, hu],
      tokenize_cons_ne rest hc]
    simp [encToks, hu]
  · rw [show encChar c ++ rest = concatMap pctByte (utf8Bytes c.toNat) ++ rest from by
      simp [encChar, hu]]
    rw [tokenize_pcts (utf8Bytes_lt256 (by omega)) rest]
    simp [encToks, hu]

theorem tokenize_enc (v : List Char) (rest : List Char) :
    tokenize (encodeURIComponentChars v ++ rest) =
      (tokenize rest).map (fun ts => concatMap encToks v ++ ts) := by
  induction v with
  | nil => simp [encodeURIComponentChars, concatMap]
  | cons c v2 ih =>
    rw [show encodeURIComponentChars (c :: v2) ++ rest =
      encChar c ++ (encodeURIComponentChars v2 ++ rest) from by
        simp [encodeURIComponentChars, concatMap],
      tokenize_encChar c _, ih]
    cases tokenize rest <;> simp [concatMap]

theorem go_none_nil : utf8DecodeGo none [] = some [] := rfl

theorem go_none_byte (b : Nat) (rest : List Tok) :
    utf8DecodeGo none (Tok.byte b :: rest) =
      (if b < 128 then (utf8DecodeGo none rest).map (fun cs => Char.ofNat b :: cs)
       else if 194 ≤ b ∧ b ≤ 223 then utf8DecodeGo (some (1, b - 192, 128, 191)) rest
       else if 224 ≤ b ∧ b ≤ 239 then
         utf8DecodeGo (some (2, b - 224, (if b = 224 then 160 else 128),
           (if b = 237 then 159 else 191))) rest
       else if 240 ≤ b ∧ b ≤ 244 then
         utf8DecodeGo (some (3, b - 240, (if b = 240 then 144 else 128),
           (if b = 244 then 143 else 191))) rest
       else none) := rfl

theorem go_pending_byte (need acc lo hi b1 : Nat) (rest : List Tok) :
    utf8DecodeGo (some (need, acc, lo, hi)) (Tok.byte b1 :: rest) =
      (if lo ≤ b1 ∧ b1 ≤ hi then
        if need = 1 then
          (utf8DecodeGo none rest).map (fun cs => Char.ofNat (acc * 64 + (b1 - 128)) :: cs)
        else utf8DecodeGo (some (need - 1, acc * 64 + (b1 - 128), 128, 191)) rest
       else none) := rfl

theorem utf8DecodeGo_encToks (c : Char) (ts : List Tok) :
    utf8DecodeGo none (encToks c ++ ts) =
      (utf8DecodeGo none ts).map (fun cs => c :: cs) := by
  have hval : c.toNat < 55296 ∨ (57343 < c.toNat ∧ c.toNat < 1114112) := c.valid
  by_cases hu : unreservedJs c = true
  · simp [encToks, hu, utf8DecodeGo_none_chr]
  · rw [show encToks c = (utf8Bytes c.toNat).map Tok.byte from by simp [encToks, hu]]
    by_cases h1 : c.toNat < 128
    · rw [show utf8Bytes c.toNat = [c.toNat] from by unfold utf8Bytes; rw [if_pos h1]]
      rw [show ([c.toNat].map Tok.byte) ++ ts = Tok.byte c.toNat :: ts from rfl,
        go_none_byte, if_pos h1, Char.ofNat_toNat]
    · by_cases h2 : c.toNat < 2048
      · rw [show utf8Bytes c.toNat =
          [192 + c.toNat / 64, 128 + c.toNat % 64] from by
            unfold utf8Bytes; rw [if_neg h1, if_pos h2]]
        rw [show ([192 + c.toNat / 64, 128 + c.toNat % 64].map Tok.byte) ++ ts =
          Tok.byte (192 + c.toNat / 64) :: Tok.byte (128 + c.toNat % 64) :: ts from rfl]
        rw [go_none_byte, if_neg (by omega), if_pos (by omega), go_pending_byte,
          if_pos (by omega), if_pos rfl]
        rw [show (192 + c.toNat / 64 - 192) * 64 + (128 + c.toNat % 64 - 128) = c.toNat by
          omega, Char.ofNat_toNat]
      · by_cases h3 : c.toNat < 65536
        · rw [show utf8Bytes c.toNat =
            [224 + c.toNat / 4096, 128 + c.toNat / 64 % 64, 128 + c.toNat % 64] from by
              unfold utf8Bytes; rw [if_neg h1, if_neg h2, if_pos h3]]
          rw [show ([224 + c.toNat / 4096, 128 + c.toNat / 64 % 64,
              128 + c.toNat % 64].map Tok.byte) ++ ts =
            Tok.byte (224 + c.toNat / 4096) :: Tok.byte (128 + c.toNat / 64 % 64) ::
              Tok.byte (128 + c.toNat % 64) :: ts from rfl]
          rw [go_none_byte, if_neg (by omega), if_neg (by omega), if_pos (by omega)]
          rw [go_pending_byte, if_pos (by constructor <;> split_ifs <;> omega),
            if_neg (by omega)]
          rw [show (2 : Nat) - 1 = 1 from rfl]
          rw [go_pending_byte, if_pos (by omega), if_pos rfl]
          rw [show ((224 + c.toNat / 4096 - 224) * 64 + (128 + c.toNat / 64 % 64 - 128)) *
              64 + (128 + c.toNat % 64 - 128) = c.toNat by omega, Char.ofNat_toNat]
        · rw [show utf8Bytes c.toNat =
            [240 + c.toNat / 262144, 128 + c.toNat / 4096 % 64, 128 + c.toNat / 64 % 64,
              128 + c.toNat % 64] from by
              unfold utf8Bytes; rw [if_neg h1, if_neg h2, if_neg h3]]
          rw [show ([240 + c.toNat / 262144, 128 + c.toNat / 4096 % 64,
              128 + c.toNat / 64 % 64, 128 + c.toNat % 64].map Tok.byte) ++ ts =
            Tok.byte (240 + c.toNat / 262144) :: Tok.byte (128 + c.toNat / 4096 % 64) ::
              Tok.byte (128 + c.toNat / 64 % 64) :: Tok.byte (128 + c.toNat % 64) ::
                ts from rfl]
          rw [go_none_byte, if_neg (by omega), if_neg (by omega), if_neg (by omega),
            if_pos (by omega)]
          rw [go_pending_byte, if_pos (by constructor <;> split_ifs <;> omega),
            if_neg (by omega)]
          rw [show (3 : Nat) - 1 = 2 from rfl]
          rw [go_pending_byte, if_pos (by omega), if_neg (by omega)]
          rw [show (2 : Nat) - 1 = 1 from rfl]
          rw [go_pending_byte, if_pos (by omega), if_pos rfl]
          rw [show (((240 + c.toNat / 262144 - 240) * 64 +
              (128 + c.toNat / 4096 % 64 - 128)) * 64 + (128 + c.toNat / 64 % 64 - 128)) *
              64 + (128 + c.toNat % 64 - 128) = c.toNat by omega, Char.ofNat_toNat]

theorem utf8DecodeGo_encToksAll (v : List Char) (ts : List Tok) :
    utf8DecodeGo none (concatMap encToks v ++ ts) =
      (utf8DecodeGo none ts).map (fun cs => v ++ cs) := by
  induction v with
  | nil =>
    cases h : utf8DecodeGo none ts <;> simp [concatMap, h]
  | cons c v2 ih =>
    rw [show concatMap encToks (c :: v2) ++ ts =
      encToks c ++ (concatMap encToks v2 ++ ts) from by simp [concatMap],
      utf8DecodeGo_encToks, ih]
    cases utf8DecodeGo none ts <;> simp

theorem decode_enc (v : List Char) :
    decodeURIComponentJs (encodeURIComponentChars v) = some v := by
  unfold decodeURIComponentJs
  rw [show encodeURIComponentChars v = encodeURIComponentChars v ++ [] from by simp,
    tokenize_enc]
  rw [show tokenize [] = some [] from rfl]
  rw [show (some ([] : List Tok)).map (fun ts => concatMap encToks v ++ ts) =
    some (concatMap encToks v ++ []) from rfl]
  rw [show (some (concatMap encToks v ++ [])).bind utf8Decode =
    utf8Decode (concatMap encToks v ++ []) from rfl]
  unfold utf8Decode
  rw [utf8DecodeGo_encToksAll]
  simp [go_none_nil]

theorem concatMap_mem {f : α → List β} {l : List α} {x : β}
    (h : x ∈ concatMap f l) : ∃ a ∈ l, x ∈ f a := by
  induction l with
  | nil => simp [concatMap] at h
  | cons a l2 ih =>
    rw [show concatMap f (a :: l2) = f a ++ concatMap f l2 from rfl] at h
    rcases List.mem_append.mp h with h2 | h2
    · exact ⟨a, by simp, h2⟩
    · obtain ⟨b, hb, hx⟩ := ih h2
      exact ⟨b, by simp [hb], hx⟩

theorem encChar_safe {c : Char} {x : Char} (hx : x ∈ encChar c) :
    x ≠ '+' ∧ x ≠ '&' ∧ x ≠ '=' := by
  unfold encChar at hx
  split_ifs at hx with hu
  · simp at hx
    subst hx
    have h := unreserved_excludes hu
    exact ⟨h.2.1, h.2.2.1, h.2.2.2.2.1⟩
  · obtain ⟨b, hb, hxb⟩ := concatMap_mem hx
    have hval : c.toNat < 55296 ∨ (57343 < c.toNat ∧ c.toNat < 1114112) := c.valid
    have hlt : b < 256 := utf8Bytes_lt256 (by omega) b hb
    have h1 : b / 16 < 16 := by omega
    have h2 : b % 16 < 16 := by omega
    simp only [pctByte, List.mem_cons, List.not_mem_nil, or_false] at hxb
    rcases hxb with h | h | h
    · subst h
      exact ⟨by decide, by decide, by decide⟩
    · subst h
      exact hexChar_ne (b / 16) h1
    · subst h
      exact hexChar_ne (b % 16) h2

theorem enc_safe {v : List Char} {x : Char} (hx : x ∈ encodeURIComponentChars v) :
    x ≠ '+' ∧ x ≠ '&' ∧ x ≠ '=' := by
  obtain ⟨c, _, hxc⟩ := concatMap_mem hx
  exact encChar_safe hxc

theorem urlDecode_enc (v : List Char) :
    urlDecode_ (encodeURIComponentChars v) = some v := by
  rw [urlDecode_, plusToSpace_eq_self (fun x hx => (enc_safe hx).1), decode_enc]

/-- The raw segment `encodeQueryMap` emits for one map entry. -/
def segOf (p : String × String) : List Char :=
  p.1.data ++ '=' :: encodeURIComponentChars p.2.data

theorem splitAmp_no_amp {x : List Char} (hx : '&' ∉ x) : splitAmp x = [x] := by
  induction x with
  | nil => rfl
  | cons c rest ih =>
    have hc : c ≠ '&' := fun h => hx (by simp [h])
    rw [splitAmp, if_neg hc, ih (fun h => hx (List.mem_cons_of_mem _ h))]

theorem splitAmp_append {x : List Char} (r : List Char) (hx : '&' ∉ x) :
    splitAmp (x ++ '&' :: r) = x :: splitAmp r := by
  induction x with
  | nil => simp [splitAmp]
  | cons c rest ih =>
    have hc : c ≠ '&' := fun h => hx (by simp [h])
    rw [show (c :: rest) ++ '&' :: r = c :: (rest ++ '&' :: r) from rfl,
      splitAmp, if_neg hc, ih (fun h => hx (List.mem_cons_of_mem _ h))]

theorem splitAmp_joinAmp {segs : List (List Char)} (hne : segs ≠ [])
    (hsegs : ∀ x ∈ segs, '&' ∉ x) : splitAmp (joinAmp segs) = segs := by
  induction segs with
  | nil => exact absurd rfl hne
  | cons x rest ih =>
    cases rest with
    | nil => exact splitAmp_no_amp (hsegs x (by simp))
    | cons y rest2 =>
      rw [joinAmp, splitAmp_append _ (hsegs x (by simp)),
        ih (by simp) (fun z hz => hsegs z (List.mem_cons_of_mem _ hz))]

/-- All keys of a map are distinct. -/
def KeysNodup (m : List (String × String)) : Prop :=
  (m.map Prod.fst).Nodup

theorem mapSet_keysNodup {m : List (String × String)} (k v : String)
    (h : KeysNodup m) : KeysNodup (mapSet m k v) := by
  unfold mapSet
  split_ifs with hany
  · unfold KeysNodup
    rw [show (m.map (fun p => if p.1 = k then (k, v) else p)).map Prod.fst =
      m.map Prod.fst from by
        rw [List.map_map]
        refine List.map_congr_left (fun p _ => ?_)
        by_cases hp : p.1 = k
        · simp [hp]
        · simp [hp]]
    exact h
  · unfold KeysNodup
    rw [List.map_append]
    simp only [List.map_cons, List.map_nil]
    rw [List.nodup_append]
    refine ⟨h, by simp, ?_⟩
    intro a ha
    simp only [List.mem_singleton]
    intro hak
    subst hak
    simp only [List.mem_map] at ha
    obtain ⟨p, hp, hpa⟩ := ha
    simp only [List.any_eq_true] at hany
    exact hany ⟨p, hp, by simp [hpa]⟩

theorem parseQueryMap_keysNodup {q : String} {m : List (String × String)}
    (h : parseQueryMap q = some m) : KeysNodup m := by
  unfold parseQueryMap at h
  rcases hp : parseQueryString q with _ | l
  · rw [hp] at h
    simp at h
  · rw [hp] at h
    simp only [Option.map_some'] at h
    cases h
    generalize hacc : ([] : List (String × String)) = acc
    have hnd : KeysNodup acc := by rw [← hacc]; exact List.nodup_nil
    clear hacc hp
    induction l generalizing acc with
    | nil => exact hnd
    | cons p rest ih => exact ih (mapSet acc p.1 p.2) (mapSet_keysNodup p.1 p.2 hnd)

theorem foldl_mapSet_self {m : List (String × String)} (hm : KeysNodup m) :
    List.foldl (fun acc p => mapSet acc p.1 p.2) [] m = m := by
  suffices h : ∀ (acc : List (String × String)),
      ((acc ++ m).map Prod.fst).Nodup →
      List.foldl (fun acc p => mapSet acc p.1 p.2) acc m = acc ++ m by
    simpa using h [] (by simpa using hm)
  clear hm
  induction m with
  | nil => intro acc _; simp
  | cons p rest ih =>
    intro acc hnd
    have hnotin : ¬acc.any (fun q => q.1 = p.1) = true := by
      simp only [List.any_eq_true, decide_eq_true_eq, not_exists, not_and]
      intro x hx hxp
      rw [List.map_append, List.nodup_append] at hnd
      exact hnd.2.2 (List.mem_map_of_mem Prod.fst hx) (by simp [hxp])
    have hstep : mapSet acc p.1 p.2 = acc ++ [p] := by
      unfold mapSet
      rw [if_neg hnotin]
    rw [List.foldl_cons, hstep, ih (acc ++ [p]) (by simpa using hnd)]
    simp

theorem segOf_ne_nil (p : String × String) : segOf p ≠ [] := by
  unfold segOf
  intro h
  rcases List.append_eq_nil.mp h with ⟨_, h2⟩
  simp at h2

theorem segOf_no_amp {p : String × String}
    (hk : ∀ c ∈ p.1.data, unreservedJs c = true) : '&' ∉ segOf p := by
  unfold segOf
  intro h
  rcases List.mem_append.mp h with h2 | h2
  · exact (unreserved_excludes (hk _ h2)).2.2.1 rfl
  · rcases List.mem_cons.mp h2 with h3 | h3
    · cases h3
    · exact (enc_safe h3).2.1 rfl

theorem parseSegment_segOf {p : String × String}
    (hk : ∀ c ∈ p.1.data, unreservedJs c = true) :
    parseSegment (segOf p) = some p := by
  have hkeq : '=' ∉ p.1.data := fun h =>
    (unreserved_excludes (hk _ h)).2.2.2.2.1 rfl
  unfold parseSegment segOf
  rw [splitFirstEq_append _ hkeq]
  simp [urlDecode_enc]

theorem head_segOf_ne_qm {p : String × String}
    (hk : ∀ c ∈ p.1.data, unreservedJs c = true) :
    (segOf p).head? ≠ some '?' := by
  unfold segOf
  rcases hd : p.1.data with _ | ⟨c, rest⟩
  · simp
  · have hc := (unreserved_excludes (hk c (by simp [hd]))).2.2.2.2.2
    simp [hc]

theorem joinAmp_head {x : List Char} (rest : List (List Char)) (hx : x ≠ []) :
    (joinAmp (x :: rest)).head? = x.head? := by
  cases rest with
  | nil => rfl
  | cons y rest2 =>
    rw [joinAmp]
    cases x with
    | nil => exact absurd rfl hx
    | cons c cs => rfl

theorem stripLeadingQm_of_ne {l : List Char} (h : l.head? ≠ some '?') :
    stripLeadingQm l = l := by
  cases l with
  | nil => rfl
  | cons c rest =>
    have hc : c ≠ '?' := by
      intro hc
      exact h (by simp [hc])
    rw [stripLeadingQm, if_neg hc]

theorem mapMOpt_cons_eq {f : α → Option β} {a : α} {l : List α} {b : β} {bs : List β}
    (hf : f a = some b) (hl : mapMOpt f l = some bs) :
    mapMOpt f (a :: l) = some (b :: bs) := by
  simp only [mapMOpt, hf, hl]

theorem mapMOpt_segOf (m : List (String × String))
    (hkeys : ∀ p ∈ m, ∀ c ∈ (Prod.fst p).data, unreservedJs c = true) :
    mapMOpt parseSegment (m.map segOf) = some m := by
  induction m with
  | nil => rfl
  | cons q rest ih =>
    rw [List.map_cons]
    exact mapMOpt_cons_eq (parseSegment_segOf (hkeys q (by simp)))
      (ih (fun r hr => hkeys r (List.mem_cons_of_mem _ hr)))

theorem parseQueryString_encodeQueryMap (m : List (String × String))
    (hkeys : ∀ p ∈ m, ∀ c ∈ (Prod.fst p).data, unreservedJs c = true) :
    parseQueryString (encodeQueryMap m) = some m := by
  cases m with
  | nil => rfl
  | cons p m2 =>
    have hsegs : ∀ x ∈ (p :: m2).map segOf, '&' ∉ x := by
      intro x hx
      simp only [List.mem_map] at hx
      obtain ⟨q, hq, rfl⟩ := hx
      exact segOf_no_amp (hkeys q hq)
    have hdata : (encodeQueryMap (p :: m2)).data = joinAmp ((p :: m2).map segOf) := rfl
    have hne : joinAmp ((p :: m2).map segOf) ≠ [] := by
      rw [List.map_cons]
      intro h
      have hh := joinAmp_head (m2.map segOf) (segOf_ne_nil p)
      rw [h] at hh
      rcases hd : (segOf p) with _ | ⟨c, cs⟩
      · exact segOf_ne_nil p hd
      · rw [hd] at hh
        simp at hh
    have hheadq : (joinAmp ((p :: m2).map segOf)).head? ≠ some '?' := by
      rw [List.map_cons, joinAmp_head (m2.map segOf) (segOf_ne_nil p)]
      exact head_segOf_ne_qm (hkeys p (by simp))
    unfold parseQueryString
    rw [hdata, if_neg hne, stripLeadingQm_of_ne hheadq,
      splitAmp_joinAmp (by simp) hsegs]
    exact mapMOpt_segOf (p :: m2) hkeys

/-- C5: decoding, encoding and decoding again is the same as decoding
once, for every query string whose decoded keys contain no characters
requiring percent-encoding (values may contain anything, including
reserved characters and `+`). -/
theorem c5_decode_encode_roundtrip (q : String) (m : List (String × String))
    (hq : parseQueryMap q = some m)
    (hkeys : ∀ p ∈ m, ∀ c ∈ (Prod.fst p).data, unreservedJs c = true) :
    parseQueryMap (encodeQueryMap m) = some m := by
  have hnd : KeysNodup m := parseQueryMap_keysNodup hq
  unfold parseQueryMap
  rw [parseQueryString_encodeQueryMap m hkeys]
  simp only [Option.map_some']
  rw [foldl_mapSet_self hnd]

/-- Witness for C5 on `"a=%26&a=+"`, whose decoded map is
`{a: " "}` (duplicate keys collapse last-write-wins, `%26` decodes to
`&`, `+` decodes to a space). -/
theorem c5_decode_encode_roundtrip_witness :
    parseQueryMap (encodeQueryMap [("a", " ")]) = some [("a", " ")] :=
  c5_decode_encode_roundtrip "a=%26&a=+" [("a", " ")] (by decide) (by decide)

end Uri

/-! ## Claim C9: ParamPropagator frame conditions -/

namespace Uri

/-- A skipped element: its attribute is absent or its value starts with
`#`. -/
def SkipElem (e : Elem) (attr : String) : Prop :=
  getAttr e attr = none ∨
    ∃ hr, getAttr e attr = some hr ∧ startsHash hr.data = true

theorem stepElem_skip (c : UPConfig) (newURL : String → Option URLObj)
    (vals : List (String × String)) (i : Nat) (e : Elem)
    (h : SkipElem e c.attr) :
    stepElem c newURL vals i e = (some e, [DomOp.readAttr i c.attr]) := by
  rcases h with h | ⟨hr, hg, hh⟩
  · simp only [stepElem, h]
  · simp only [stepElem, hg]
    rw [if_pos (Or.inr hh)]

theorem stepElem_write_index (c : UPConfig) (newURL : String → Option URLObj)
    (vals : List (String × String)) (i : Nat) (e : Elem)
    {j : Nat} {a w : String}
    (h : DomOp.writeAttr j a w ∈ (stepElem c newURL vals i e).2) : j = i := by
  unfold stepElem at h
  rcases hga : getAttr e c.attr with _ | href
  · simp only [hga] at h
    simp at h
  · simp only [hga] at h
    split_ifs at h with hskip
    · simp at h
    · rcases hurl : newURL href with _ | url
      · simp only [hurl] at h
        simp at h
      · simp only [hurl] at h
        rcases hmap : parseQueryMap url.search with _ | map
        · simp only [hmap] at h
          simp at h
        · simp only [hmap] at h
          rcases hser : getAttr e c.serializeAttr with _ | skey
          · simp only [hser] at h
            simp at h
            exact h.1
          · simp only [hser] at h
            split_ifs at h <;> (simp at h; exact h.1)

theorem processEls_write_ge (c : UPConfig) (newURL : String → Option URLObj)
    (vals : List (String × String)) :
    ∀ (l : List Elem) (m j : Nat) (a w : String),
      DomOp.writeAttr j a w ∈ (processEls c newURL vals m l).2 → m ≤ j := by
  intro l
  induction l with
  | nil =>
    intro m j a w hj
    simp [processEls] at hj
  | cons x xs ih =>
    intro m j a w hj
    simp only [processEls] at hj
    rcases hse : stepElem c newURL vals m x with ⟨o, ops⟩
    rw [hse] at hj
    cases o with
    | some e2 =>
      simp at hj
      rcases hj with hj | hj
      · exact (stepElem_write_index c newURL vals m x (by rw [hse]; exact hj)).ge
      · exact (Nat.le_succ m).trans (ih (m + 1) j a w hj)
    | none =>
      simp at hj
      exact (stepElem_write_index c newURL vals m x (by rw [hse]; exact hj)).ge

theorem processEls_skip (c : UPConfig) (newURL : String → Option URLObj)
    (vals : List (String × String)) :
    ∀ (els : List Elem) (n i : Nat) (e : Elem), els[i]? = some e →
      SkipElem e c.attr →
      (processEls c newURL vals n els).1[i]? = some e ∧
        ∀ a w, DomOp.writeAttr (n + i) a w ∉ (processEls c newURL vals n els).2 := by
  intro els
  induction els with
  | nil =>
    intro n i e he _
    simp at he
  | cons e0 rest ih =>
    intro n i e he hskip
    cases i with
    | zero =>
      have he2 : e0 = e := by simpa using he
      subst he2
      rw [show processEls c newURL vals n (e0 :: rest) =
          ((e0 :: (processEls c newURL vals (n + 1) rest).1),
            [DomOp.readAttr n c.attr] ++ (processEls c newURL vals (n + 1) rest).2) from by
        simp only [processEls, stepElem_skip c newURL vals n e0 hskip]]
      refine ⟨by simp, ?_⟩
      intro a w hmem
      simp at hmem
      have hge := processEls_write_ge c newURL vals rest (n + 1) (n + 0) a w hmem
      omega
    | succ j =>
      simp at he
      have hstep := ih (n + 1) j e he hskip
      simp only [processEls]
      rcases hse : stepElem c newURL vals n e0 with ⟨o, ops⟩
      cases o with
      | some e2 =>
        refine ⟨by simpa using hstep.1, ?_⟩
        intro a w hmem
        simp at hmem
        rcases hmem with hmem | hmem
        · have := stepElem_write_index c newURL vals n e0 (by rw [hse]; exact hmem)
          omega
        · have := hstep.2 a w
          rw [show n + 1 + j = n + (j + 1) by omega] at this
          exact this hmem
      | none =>
        refine ⟨by simpa using he, ?_⟩
        intro a w hmem
        have := stepElem_write_index c newURL vals n e0 (by rw [hse]; exact hmem)
        omega

/-- C9: if the page has no query string, `updateParamsFromUrl` performs
no DOM access at all and leaves every element untouched; and every
matched element whose attribute is absent or starts with `#` keeps its
state, with no write ever issued to it (whatever the page query, the
config and the URL oracle do). -/
theorem c9_frame_conditions :
    (∀ (cfg : UPConfigOpt) (newURL : String → Option URLObj) (els : List Elem),
      updateParamsFromUrl cfg "" newURL els = (els, [])) ∧
    (∀ (cfg : UPConfigOpt) (search : String) (newURL : String → Option URLObj)
        (els : List Elem) (i : Nat) (e : Elem),
      els[i]? = some e →
      SkipElem e (mergeUPConfig defaultUPConfig cfg).attr →
      (updateParamsFromUrl cfg search newURL els).1[i]? = some e ∧
        ∀ a w, DomOp.writeAttr i a w ∉ (updateParamsFromUrl cfg search newURL els).2) := by
  constructor
  · intro cfg newURL els
    rfl
  · intro cfg search newURL els i e he hskip
    simp only [updateParamsFromUrl]
    split_ifs with hempty
    · exact ⟨he, by simp⟩
    · rcases hp : parseQueryString search with _ | pairs
      · exact ⟨he, by simp⟩
      · have hmain := processEls_skip (mergeUPConfig defaultUPConfig cfg) newURL
          (buildVals (mergeUPConfig defaultUPConfig cfg).params pairs) els 0 i e he hskip
        refine ⟨hmain.1, ?_⟩
        intro a w hmem
        simp at hmem
        have := hmain.2 a w
        rw [Nat.zero_add] at this
        exact this hmem

/-- Witness for C9 part two: one element whose `href` is an internal
anchor stays untouched with no write recorded. -/
theorem c9_frame_conditions_witness :
    (updateParamsFromUrl {} "?a=1" (fun _ => none) [⟨[("href", "#x")]⟩]).1[0]? =
      some ⟨[("href", "#x")]⟩ ∧
    ∀ a w, DomOp.writeAttr 0 a w ∉
      (updateParamsFromUrl {} "?a=1" (fun _ => none) [⟨[("href", "#x")]⟩]).2 :=
  c9_frame_conditions.2 {} "?a=1" (fun _ => none) [⟨[("href", "#x")]⟩] 0 ⟨[("href", "#x")]⟩
    (by decide) (Or.inr ⟨"#x", by decide, by decide⟩)

end Uri

/-! ## Claims C7 and C8: keydown listeners and the module surface -/

namespace YTM

/-- C7 evaluated on the modal: the claim that live keydown listeners
never exceed one is violated by the code.  `setVisible(false)` passes a
freshly created bound closure to `removeEventListener`, which is not the
closure that was registered, so closing removes nothing: after
open, close, reopen TWO listeners are live.  (An Escape keydown still
closes the modal and does clear the accumulated listeners, because every
stale handler fires and removes itself.) -/
theorem c7_stale_listeners_accumulate :
    (runOps (mkModal defaultConfig false 0)
        [.doPlay "a" none none, .doClose, .doPlay "a" none none]).listeners.length = 2 ∧
    (runOps (mkModal defaultConfig false 0)
        [.doPlay "a" none none, .doClose, .doPlay "a" none none,
          .keydown 27]).listeners = [] ∧
    (runOps (mkModal defaultConfig false 0)
        [.doPlay "a" none none, .doClose, .doPlay "a" none none,
          .keydown 27]).classVisible = false := by
  decide

/-- C8: `init` is idempotent (after any `init` the singleton exists, and
a second `init` with any configuration returns the state unchanged), and
the module-level `play` before any `init` throws
`"youtubemodal.init must be run first."`. -/
theorem c8_init_idempotent_play_throws :
    (∀ (ms : ModuleState) (o o2 : Option MConfigOpt) (m m2 : Bool) (p p2 : Nat),
      (moduleInit ms o m p).singleton.isSome ∧
        moduleInit (moduleInit ms o m p) o2 m2 p2 = moduleInit ms o m p) ∧
    (∀ v : String,
      modulePlay ⟨none⟩ v = Except.error "youtubemodal.init must be run first.") := by
  constructor
  · intro ms o o2 m m2 p p2
    obtain ⟨s⟩ := ms
    cases s <;> simp [moduleInit]
  · intro v
    rfl

end YTM
